import Mathlib

/-!
Verification of the unlurker bulk retrieval pipeline.

This file shallowly embeds the core data structures and algorithms of the
repository (worker pool, bulk worker-pool getter, single-flight bulk getter,
TTL map cache, persistent item file cache, item stream ordered search, the
active-items frontier scan, and item unmarshalling) as executable Lean
definitions and proves the specified properties about them.

Channels and goroutine scheduling are sequentialized: non-deterministic
choices made by the runtime (whether a non-blocking send succeeds, how many
keys the queue accepts, which results a batch read returns) are passed in as
explicit oracle parameters, so theorems quantify over all schedules.
-/

namespace Unlurker

/-! ## Worker pool (`hn/core/worker_pool.go`) and
    bulk worker-pool getter (`hn/core/bulk_worker_pool_getter.go`)

`DoWork` walks the work list, attempting a non-blocking enqueue (`trySend`)
for each item; the success of the i-th attempt is given by the oracle
`accept i`.  On the first refusal it returns the remaining tail.  Every
enqueued item's callback is later run exactly once by a worker. -/

namespace WP

/-- The enqueue loop of `DoWork`: returns `(queued, rejected)`.
`accept i` tells whether the i-th `trySend` on the work channel succeeds. -/
def doWork (accept : Nat → Bool) (i : Nat) : List α → List α × List α
  | [] => ([], [])
  | w :: ws =>
    if accept i then
      let r := doWork accept (i + 1) ws
      (w :: r.1, r.2)
    else
      ([], w :: ws)

/-- Outcome of `safeRunGetter`: the inner getter either returned a value,
returned an error (wrapped as "getter failed"), or panicked (recovered and
wrapped as `ErrGetterPanic`); the latter two are both errors. -/
inductive GetterOutcome (V : Type) where
  | ok (v : V)
  | fail (e : String)
deriving DecidableEq, Repr

/-- A reader handle as produced by the item pipeline: either real content or
the error-carrying reader made by `WrapErrorInReadCloser`. -/
inductive Rdr where
  | content (s : String)
  | failing (e : String)
deriving DecidableEq, Repr

/-- `WrapErrorInReadCloser` (`hn/core`, part_010): wraps the error in a
reader and returns a nil error. -/
def wrapErrorInReadCloser (e : String) : Except String Rdr :=
  Except.ok (Rdr.failing e)

/-- Observable effect of one queued task of `BulkWorkerPoolGetter.Get`:
either the `do` callback is invoked with `(key, value)`, or an error is sent
on `errCh` (when `wrapError` itself fails). -/
inductive TaskEvent (K V : Type) where
  | doCall (k : K) (v : V)
  | errSend (e : String)
deriving DecidableEq, Repr

/-- The body of the worker task `BulkWorkerPoolGetter.Get` enqueues for one
key: run the getter (panics already converted to errors by
`safeRunGetter`), wrap errors via `wrapError`, and call `do` with the
result; if `wrapError` returns an error, send it on `errCh` instead. -/
def taskBody (fetch : K → GetterOutcome V) (wrapError : String → Except String V)
    (k : K) : TaskEvent K V :=
  match fetch k with
  | GetterOutcome.ok v => TaskEvent.doCall k v
  | GetterOutcome.fail e =>
    match wrapError e with
    | Except.ok v => TaskEvent.doCall k v
    | Except.error e2 => TaskEvent.errSend e2

/-- `BulkWorkerPoolGetter.Get`: dispatch the keys through `DoWork`; each
queued key's task runs exactly once; the refused tail is returned. -/
def bulkGet (accept : Nat → Bool) (fetch : K → GetterOutcome V)
    (wrapError : String → Except String V) (keys : List K) :
    List (TaskEvent K V) × List K :=
  let split := doWork accept 0 keys
  ((split.1.map (taskBody fetch wrapError)), split.2)

/-- Whether a task event is a `do` invocation. -/
def TaskEvent.isDoCall : TaskEvent K V → Bool
  | TaskEvent.doCall _ _ => true
  | TaskEvent.errSend _ => false

theorem doWork_append (accept : Nat → Bool) (i : Nat) (ws : List α) :
    (doWork accept i ws).1 ++ (doWork accept i ws).2 = ws := by
  induction ws generalizing i with
  | nil => simp [doWork]
  | cons w ws ih =>
    by_cases h : accept i
    · simp [doWork, h, ih]
    · simp [doWork, h]

theorem doWork_queued_length (accept : Nat → Bool) (i : Nat) (ws : List α) :
    (doWork accept i ws).1.length + (doWork accept i ws).2.length = ws.length := by
  have h := congrArg List.length (doWork_append accept i ws)
  simpa using h

/-- `doWork` splits the works at the first refused index: the queued part is
the prefix of accepted attempts and the rejected part is the tail starting at
the first index whose `trySend` failed. -/
theorem doWork_split (accept : Nat → Bool) (i : Nat) (ws : List α) :
    ∃ c ≤ ws.length,
      (doWork accept i ws).1 = ws.take c ∧
      (doWork accept i ws).2 = ws.drop c ∧
      (∀ j < c, accept (i + j) = true) ∧
      (c < ws.length → accept (i + c) = false) := by
  induction ws generalizing i with
  | nil => exact ⟨0, Nat.le_refl _, rfl, rfl, by omega, by simp⟩
  | cons w ws ih =>
    by_cases h : accept i
    · obtain ⟨c, hc, h1, h2, h3, h4⟩ := ih (i + 1)
      refine ⟨c + 1, by simpa using Nat.succ_le_succ hc, ?_, ?_, ?_, ?_⟩
      · simp [doWork, h, h1]
      · simp [doWork, h, h2]
      · intro j hj
        cases j with
        | zero => simpa using h
        | succ j =>
          have := h3 j (by omega)
          simpa [Nat.add_assoc, Nat.add_comm 1 j] using this
      · intro hlt
        have := h4 (by simpa using Nat.lt_of_succ_lt_succ hlt)
        simpa [Nat.add_assoc, Nat.add_comm 1 c] using this
    · refine ⟨0, Nat.zero_le _, ?_, ?_, by omega, ?_⟩
      · simp [doWork, h]
      · simp [doWork, h]
      · intro _
        simpa using h

theorem taskBody_isDoCall (fetch : K → GetterOutcome Rdr) (k : K) :
    (taskBody fetch wrapErrorInReadCloser k).isDoCall = true := by
  unfold taskBody
  cases fetch k with
  | ok v => rfl
  | fail e => rfl

end WP

/-- C1: for every call to the bulk getter layer (`DoWork`, and
`BulkWorkerPoolGetter.Get` built on it with the repository's
`WrapErrorInReadCloser` error wrapper), the number of `do` invocations plus
the length of the returned rejected list equals the number of input keys
(duplicates counted), and the rejected list is exactly the contiguous tail
of the input list beginning at the first key refused because the work queue
was full. -/
theorem c1_bulk_getter_counts (accept : Nat → Bool)
    (fetch : K → WP.GetterOutcome WP.Rdr) (keys : List K) :
    ((WP.bulkGet accept fetch WP.wrapErrorInReadCloser keys).1.filter
        WP.TaskEvent.isDoCall).length +
      (WP.bulkGet accept fetch WP.wrapErrorInReadCloser keys).2.length =
      keys.length ∧
    (WP.doWork accept 0 keys).1.length + (WP.doWork accept 0 keys).2.length =
      keys.length ∧
    ∃ c ≤ keys.length,
      (WP.bulkGet accept fetch WP.wrapErrorInReadCloser keys).2 = keys.drop c ∧
      ((WP.bulkGet accept fetch WP.wrapErrorInReadCloser keys).1.filter
        WP.TaskEvent.isDoCall).length = c ∧
      (∀ j < c, accept j = true) ∧
      (c < keys.length → accept c = false) := by
  have hall : ∀ l : List K,
      (l.map (WP.taskBody fetch WP.wrapErrorInReadCloser)).filter
          WP.TaskEvent.isDoCall =
        l.map (WP.taskBody fetch WP.wrapErrorInReadCloser) := by
    intro l
    apply List.filter_eq_self.2
    intro e he
    obtain ⟨k, _, rfl⟩ := List.mem_map.1 he
    exact WP.taskBody_isDoCall fetch k
  obtain ⟨c, hc, h1, h2, h3, h4⟩ := WP.doWork_split accept 0 keys
  have hlen : ((WP.bulkGet accept fetch WP.wrapErrorInReadCloser keys).1.filter
      WP.TaskEvent.isDoCall).length = (WP.doWork accept 0 keys).1.length := by
    simp [WP.bulkGet, hall]
  refine ⟨?_, WP.doWork_queued_length accept 0 keys, c, hc, ?_, ?_, ?_, ?_⟩
  · rw [hlen]
    simpa [WP.bulkGet] using WP.doWork_queued_length accept 0 keys
  · simpa [WP.bulkGet] using h2
  · rw [hlen, h1]
    simpa using Nat.min_eq_left hc
  · intro j hj
    simpa using h3 j hj
  · intro hlt
    simpa using h4 hlt

/-! ## Items and unmarshalling (`hn` package, part_003) -/

namespace HN

/-- `ItemType`: `NullBody` is the empty string, the zero value. -/
inductive ItemType where
  | nullBody
  | job
  | story
  | comment
  | poll
  | pollOption
deriving DecidableEq, Repr

/-- The decoded `Item` entity (fields the core inspects). -/
structure Item where
  parent : Option Nat
  author : String
  type : ItemType
  kids : List Nat
  time : Int
  id : Nat
  dead : Bool
  deleted : Bool
deriving DecidableEq, Repr

/-- The Go zero value of `Item`. -/
def zeroItem : Item :=
  { parent := none, author := "", type := ItemType.nullBody, kids := [],
    time := 0, id := 0, dead := false, deleted := false }

/-- `unmarshalItem` (part_003): JSON decoding is abstracted as its outcome
`decoded` (a decode error, the JSON `null` body, or a decoded item).  A null
body yields the zero item with `ID` set to the requested id and `Type` set
to `NullBody`; a decoded item whose embedded id differs from the requested
id is a contract error. -/
def unmarshalItem (id : Nat) (decoded : Except String (Option Item)) :
    Except String Item :=
  match decoded with
  | Except.error e => Except.error ("failed to deserialize item: " ++ e)
  | Except.ok none => Except.ok { zeroItem with id := id, type := ItemType.nullBody }
  | Except.ok (some item) =>
    if item.id ≠ id then
      Except.error "resource id does not match body id: contract error"
    else
      Except.ok item

end HN

/-- C10: for every requested id, `unmarshalItem` either returns an error or
returns an item whose `ID` equals the requested id; a JSON `null` body
yields an item with `ID` set to the requested id and `Type` `NullBody`, and
a non-null body whose embedded id differs from the requested id yields a
contract error rather than an item. -/
theorem c10_unmarshal_item_id (id : Nat) (decoded : Except String (Option HN.Item)) :
    (∀ it, HN.unmarshalItem id decoded = Except.ok it → it.id = id) ∧
    (∃ it, HN.unmarshalItem id (Except.ok none) = Except.ok it ∧
      it.id = id ∧ it.type = HN.ItemType.nullBody) ∧
    (∀ it : HN.Item, it.id ≠ id →
      ∃ e, HN.unmarshalItem id (Except.ok (some it)) = Except.error e) := by
  refine ⟨?_, ?_, ?_⟩
  · intro it hit
    cases decoded with
    | error e => simp [HN.unmarshalItem] at hit
    | ok o =>
      cases o with
      | none =>
        simp only [HN.unmarshalItem, Except.ok.injEq] at hit
        rw [← hit]
      | some item =>
        by_cases h : item.id = id
        · simp [HN.unmarshalItem, h] at hit
          rw [← hit, h]
        · simp [HN.unmarshalItem, h] at hit
  · exact ⟨_, rfl, rfl, rfl⟩
  · intro it hne
    exact ⟨"resource id does not match body id: contract error",
      by simp [HN.unmarshalItem, hne]⟩

/-- Closed witness for C10 at concrete inputs. -/
theorem c10_unmarshal_item_id_witness :
    (∀ it, HN.unmarshalItem 7 (Except.ok (some { HN.zeroItem with id := 7 })) =
        Except.ok it → it.id = 7) ∧
    ({ HN.zeroItem with id := 9 } : HN.Item).id ≠ 7 ∧
    (∃ e, HN.unmarshalItem 7 (Except.ok (some { HN.zeroItem with id := 9 })) =
        Except.error e) :=
  ⟨(c10_unmarshal_item_id 7 (Except.ok (some { HN.zeroItem with id := 7 }))).1,
   by decide,
   (c10_unmarshal_item_id 7 (Except.ok (some { HN.zeroItem with id := 9 }))).2.2
     { HN.zeroItem with id := 9 } (by decide)⟩

/-! ## TTL map cache (`MapCache`, part_008)

Two generations `m0`, `m1`; `mi` selects the old generation.  `Put` writes
into the new generation and, when the clock delta since `lastPurge` exceeds
the TTL, replaces the old generation by a fresh empty map and rotates the
roles. -/

namespace MC

structure MCEntry (V : Type) where
  added : Int
  value : V
deriving DecidableEq, Repr

structure MapCache (V : Type) where
  lastPurge : Int
  ttl : Int
  m0 : List (Nat × MCEntry V)
  m1 : List (Nat × MCEntry V)
  mi : Bool
deriving DecidableEq, Repr

/-- A fresh cache: both generations empty, `lastPurge` at the zero time. -/
def MapCache.init (ttl : Int) : MapCache V :=
  { lastPurge := 0, ttl := ttl, m0 := [], m1 := [], mi := false }

/-- `c.old()`: the generation indexed by `mi`. -/
def MapCache.oldGen (c : MapCache V) : List (Nat × MCEntry V) :=
  if c.mi then c.m1 else c.m0

/-- `c.new()`: the generation indexed by `mi+1 mod 2`. -/
def MapCache.newGen (c : MapCache V) : List (Nat × MCEntry V) :=
  if c.mi then c.m0 else c.m1

/-- Go map assignment `m[k] = e`: replace or insert. -/
def upsertA (l : List (Nat × MCEntry V)) (k : Nat) (e : MCEntry V) :
    List (Nat × MCEntry V) :=
  if l.any (fun p => p.1 == k) then
    l.map (fun p => if p.1 == k then (k, e) else p)
  else
    (k, e) :: l

/-- Write the new generation of `c`. -/
def MapCache.withNewGen (c : MapCache V) (g : List (Nat × MCEntry V)) :
    MapCache V :=
  if c.mi then { c with m0 := g } else { c with m1 := g }

/-- Write the old generation of `c`. -/
def MapCache.withOldGen (c : MapCache V) (g : List (Nat × MCEntry V)) :
    MapCache V :=
  if c.mi then { c with m1 := g } else { c with m0 := g }

/-- `MapCache.Put` (part_008 lines 170-184): insert `(now, v)` under `k`
into the new generation; then, if `now - lastPurge > ttl`, clear the old
generation, flip `mi` (so the previous new generation becomes old and the
cleared map becomes new) and set `lastPurge := now`. -/
def MapCache.put (c : MapCache V) (now : Int) (k : Nat) (v : V) : MapCache V :=
  let c1 := c.withNewGen (upsertA c.newGen k ⟨now, v⟩)
  if now - c.lastPurge > c.ttl then
    let c2 := c1.withOldGen []
    { c2 with mi := !c2.mi, lastPurge := now }
  else
    c1

/-- All entries resident in either generation. -/
def MapCache.resident (c : MapCache V) : List (Nat × MCEntry V) :=
  c.m0 ++ c.m1

/-- Well-formedness: every entry of the new generation was added no earlier
than the last rotation.  This holds for all caches reachable under a
monotone clock: rotation clears the map that becomes new. -/
def WF (c : MapCache V) : Prop :=
  ∀ p ∈ c.newGen, c.lastPurge ≤ p.2.added

theorem mem_upsertA {l : List (Nat × MCEntry V)} {k : Nat} {e : MCEntry V}
    {p : Nat × MCEntry V} (hp : p ∈ upsertA l k e) : p = (k, e) ∨ p ∈ l := by
  unfold upsertA at hp
  by_cases h : l.any (fun q => q.1 == k)
  · rw [if_pos h] at hp
    obtain ⟨q, hq, hqe⟩ := List.mem_map.1 hp
    by_cases hk : q.1 == k
    · rw [if_pos hk] at hqe
      exact Or.inl hqe.symm
    · rw [if_neg hk] at hqe
      exact Or.inr (hqe ▸ hq)
  · rw [if_neg h] at hp
    rcases List.mem_cons.1 hp with h1 | h1
    · exact Or.inl h1
    · exact Or.inr h1

theorem resident_eq_gens (c : MapCache V) (p : Nat × MCEntry V) :
    p ∈ c.resident ↔ p ∈ c.oldGen ∨ p ∈ c.newGen := by
  cases h : c.mi <;>
    simp [MapCache.resident, MapCache.oldGen, MapCache.newGen, h,
      List.mem_append, or_comm]

/-- Non-rotating puts and rotating puts both preserve well-formedness when
the clock does not run backwards. -/
theorem WF_put {c : MapCache V} (hwf : WF c) {now : Int}
    (hmono : c.lastPurge ≤ now) (k : Nat) (v : V) : WF (c.put now k v) := by
  unfold MapCache.put
  by_cases hrot : now - c.lastPurge > c.ttl
  · rw [if_pos hrot]
    intro p hp
    cases hmi : c.mi <;>
      simp [MapCache.newGen, MapCache.withNewGen, MapCache.withOldGen, hmi] at hp
  · rw [if_neg hrot]
    intro p hp
    cases hmi : c.mi <;>
      simp only [MapCache.newGen, MapCache.withNewGen, hmi, Bool.false_eq_true,
        if_false, if_true] at hp ⊢ <;>
    · rcases mem_upsertA hp with h1 | h1
      · subst h1
        exact hmono
      · exact hwf p (by simpa [MapCache.newGen, hmi] using h1)

end MC

/-- C7 counterexample: with TTL 10, put key 1 at time 1, key 2 at time 5,
then key 3 at time 1000.  The last put's clock delta since the last
rotation (1000 - 0) exceeds the TTL, so it rotates, yet the entry for key 1
-- added 999 > 2×TTL before that put's clock time -- is still resident in a
generation afterwards.  This refutes the claim that after such a put no
entry added more than 2×TTL before remains resident. -/
theorem c7_counterexample :
    let c0 : MC.MapCache Nat := MC.MapCache.init 10
    let c1 := c0.put 1 1 10
    let c2 := c1.put 5 2 20
    let c3 := c2.put 1000 3 30
    ((1000 : Int) - c2.lastPurge > c2.ttl) ∧
      ∃ p ∈ c3.resident, p.2.added < 1000 - 2 * c2.ttl := by
  refine ⟨by decide, ⟨(1, ⟨1, 10⟩), by decide, by decide⟩⟩

/-- C7 (amended): for every `Put` on the TTL map cache whose clock delta
since the last rotation exceeds the TTL, the put performs a generation swap
(the old generation is replaced by a fresh empty map that becomes the new
generation, and the previous new generation -- including the entry just
written -- becomes the old generation), after which no entry added before
that last rotation remains resident in either generation.  (Entries added
more than 2×TTL before the put survive exactly when they were added after
that rotation, i.e. when the delta itself exceeded 2×TTL, as the
counterexample shows; the 2×TTL bound of the original claim holds only when
rotations are at most 2×TTL apart.) -/
theorem c7_map_cache_rotation (c : MC.MapCache V) (now : Int) (k : Nat) (v : V)
    (hwf : MC.WF c) (hrot : now - c.lastPurge > c.ttl) (httl : 0 ≤ c.ttl) :
    (c.put now k v).newGen = [] ∧
    (c.put now k v).oldGen = MC.upsertA c.newGen k ⟨now, v⟩ ∧
    (c.put now k v).lastPurge = now ∧
    (∀ p ∈ (c.put now k v).resident, c.lastPurge ≤ p.2.added) := by
  have hmono : c.lastPurge ≤ now := by omega
  refine ⟨?_, ?_, ?_, ?_⟩
  · unfold MC.MapCache.put
    rw [if_pos hrot]
    cases hmi : c.mi <;>
      simp [MC.MapCache.newGen, MC.MapCache.withNewGen, MC.MapCache.withOldGen, hmi]
  · unfold MC.MapCache.put
    rw [if_pos hrot]
    cases hmi : c.mi <;>
      simp [MC.MapCache.newGen, MC.MapCache.oldGen, MC.MapCache.withNewGen,
        MC.MapCache.withOldGen, hmi]
  · unfold MC.MapCache.put
    rw [if_pos hrot]
  · intro p hp
    unfold MC.MapCache.put at hp
    rw [if_pos hrot] at hp
    have hp2 : p ∈ MC.upsertA c.newGen k ⟨now, v⟩ := by
      cases hmi : c.mi <;>
        simpa [MC.MapCache.resident, MC.MapCache.newGen, MC.MapCache.withNewGen,
          MC.MapCache.withOldGen, hmi] using hp
    rcases MC.mem_upsertA hp2 with h1 | h1
    · subst h1
      exact hmono
    · exact hwf p h1

/-- Closed witness for the amended C7 theorem: a concrete rotating put. -/
theorem c7_map_cache_rotation_witness :
    let c : MC.MapCache Nat := MC.MapCache.init 10
    let c1 := c.put 1 1 10
    (MC.WF c1 ∧ (20 : Int) - c1.lastPurge > c1.ttl ∧ (0 : Int) ≤ c1.ttl) ∧
      ((c1.put 20 2 20).newGen = [] ∧
        ∀ p ∈ (c1.put 20 2 20).resident, c1.lastPurge ≤ p.2.added) := by
  refine ⟨⟨?_, by decide, by decide⟩, ?_, ?_⟩
  · intro p hp
    fin_cases hp; decide
  · exact (c7_map_cache_rotation _ 20 2 20
      (by intro p hp; fin_cases hp; decide) (by decide) (by decide)).1
  · exact (c7_map_cache_rotation _ 20 2 20
      (by intro p hp; fin_cases hp; decide) (by decide) (by decide)).2.2.2

/-! ## Persistent item cache (`hn/core/item_file_cache.go`)

The database is a list of rows `(id, refreshed, time, blob)` with `id` as
primary key.  `Get` issues `SELECT ... WHERE ID IN (...) AND NOT (staleIf)`
and invokes `do` once per input position of each returned id, returning the
positions that received no callback.  `Put` skips blobs equal to the JSON
`null` literal and upserts the rest. -/

namespace FC

structure Row where
  id : Nat
  refreshed : Int
  time : Int
  blob : String
deriving DecidableEq, Repr

/-- The rows returned by the `Get` query: id requested and staleness
predicate false at `now`. -/
def query (stale : Int → Int → Int → Bool) (now : Int) (db : List Row)
    (ids : List Nat) : List Row :=
  db.filter (fun r => ids.contains r.id && !stale now r.refreshed r.time)

/-- `ItemFileCache.Get` / `getRows`: for each returned row, every input
position holding that id is marked done and receives a `do(id, blob)`
callback; `remaining` is the input ids (order and duplicates preserved)
whose positions were never marked. -/
def fcGet (stale : Int → Int → Int → Bool) (now : Int) (db : List Row)
    (ids : List Nat) : List (Nat × String) × List Nat :=
  let rows := query stale now db ids
  (rows.flatMap (fun r => (ids.filter (fun i => i == r.id)).map (fun i => (i, r.blob))),
   ids.filter (fun i => !rows.any (fun r => r.id == i)))

/-- `INSERT OR REPLACE` of a single row keyed by `id`. -/
def upsertRow (db : List Row) (row : Row) : List Row :=
  if db.any (fun r => r.id == row.id) then
    db.map (fun r => if r.id == row.id then row else r)
  else
    db ++ [row]

/-- The parameter-collection loop of `ItemFileCache.Put`: blobs equal to the
four-byte JSON `null` literal are skipped before the upsert; other blobs
have `(id, time)` extracted by JSON decoding (abstracted as `decode`), with
a decode failure aborting the put. -/
def collectPut (decode : String → Option (Nat × Int)) (now : Int) :
    List String → Except String (List Row)
  | [] => Except.ok []
  | b :: rest =>
    if b = "null" then
      collectPut decode now rest
    else
      match decode b with
      | none => Except.error "failed to unmarshal item"
      | some (id, t) =>
        (collectPut decode now rest).map (fun rs => ⟨id, now, t, b⟩ :: rs)

/-- `ItemFileCache.Put`: multi-row upsert of the collected rows. -/
def fcPut (decode : String → Option (Nat × Int)) (now : Int) (db : List Row)
    (blobs : List String) : Except String (List Row) :=
  (collectPut decode now blobs).map (fun rs => rs.foldl upsertRow db)

/-- The age-decaying scenario predicate `refreshed < now - 150`. -/
def staleIf150 (now refreshed _time : Int) : Bool :=
  refreshed < now - 150

/-- Decoder for the three scenario blobs. -/
def scenarioDecode (s : String) : Option (Nat × Int) :=
  if s = "b1" then some (1, 0)
  else if s = "b2" then some (2, 0)
  else if s = "b3" then some (3, 0)
  else none

/-- The scenario database: id 1 inserted at t=60, id 2 at t=120, id 3 at
t=180. -/
def scenarioDB : Except String (List Row) := do
  let d1 ← fcPut scenarioDecode 60 [] ["b1"]
  let d2 ← fcPut scenarioDecode 120 d1 ["b2"]
  fcPut scenarioDecode 180 d2 ["b3"]

theorem mem_calls (stale : Int → Int → Int → Bool) (now : Int) (db : List Row)
    (ids : List Nat) (c : Nat × String) (hc : c ∈ (fcGet stale now db ids).1) :
    ∃ r ∈ db, r.id = c.1 ∧ stale now r.refreshed r.time = false ∧
      c.2 = r.blob ∧ c.1 ∈ ids := by
  obtain ⟨r, hr, hcr⟩ := List.mem_flatMap.1 hc
  obtain ⟨i, hi, rfl⟩ := List.mem_map.1 hcr
  have hrq := List.mem_filter.1 hr
  have hii := List.mem_filter.1 hi
  have hieq : i = r.id := by simpa using hii.2
  have hq : ids.contains r.id && !stale now r.refreshed r.time := hrq.2
  refine ⟨r, hrq.1, hieq.symm, ?_, rfl, hii.1⟩
  have h2 := hq
  simp only [Bool.and_eq_true, Bool.not_eq_true'] at h2
  exact h2.2

end FC

/-- C4: `ItemFileCache.Get` never invokes the `do` callback for a row whose
configured staleness predicate evaluates true at the query's `now`, and
returns as remaining exactly the input ids (in input order, duplicates
included) that received no callback; and in the literal scenario with
predicate `refreshed < now - 150`, inserting id 1 at t=60, id 2 at t=120,
id 3 at t=180 and querying all three at t=240 produces callbacks exactly
for ids 2 and 3 and the remaining list `[1]`. -/
theorem c4_file_cache_staleness (stale : Int → Int → Int → Bool) (now : Int)
    (db : List FC.Row) (ids : List Nat) :
    (∀ c ∈ (FC.fcGet stale now db ids).1,
      ∃ r ∈ db, r.id = c.1 ∧ stale now r.refreshed r.time = false ∧ c.2 = r.blob) ∧
    ((FC.fcGet stale now db ids).2 =
      ids.filter (fun i => !(FC.fcGet stale now db ids).1.any (fun c => c.1 == i))) ∧
    (∃ d, FC.scenarioDB = Except.ok d ∧
      (FC.fcGet FC.staleIf150 240 d [1, 2, 3]).1 = [(2, "b2"), (3, "b3")] ∧
      (FC.fcGet FC.staleIf150 240 d [1, 2, 3]).2 = [1]) := by
  refine ⟨?_, ?_, ?_⟩
  · intro c hc
    obtain ⟨r, hr, h1, h2, h3, _⟩ := FC.mem_calls stale now db ids c hc
    exact ⟨r, hr, h1, h2, h3⟩
  · apply (List.filter_congr ?_).symm
    intro i hi
    congr 1
    rcases h : (FC.query stale now db ids).any (fun r => r.id == i) with hfalse | htrue
    · rcases h2 : (FC.fcGet stale now db ids).1.any (fun c => c.1 == i) with _ | _
      · rfl
      · exfalso
        obtain ⟨c, hc, hci⟩ := List.any_eq_true.1 h2
        obtain ⟨r, hrdb, hr1, hr2, _, hcin⟩ := FC.mem_calls stale now db ids c hc
        have : (FC.query stale now db ids).any (fun r => r.id == i) = true := by
          apply List.any_eq_true.2
          refine ⟨r, ?_, ?_⟩
          · apply List.mem_filter.2
            refine ⟨hrdb, ?_⟩
            simp only [Bool.and_eq_true, Bool.not_eq_true']
            constructor
            · apply List.elem_eq_true_of_mem
              rw [hr1]
              simpa using hcin
            · exact hr2
          · simp only [beq_iff_eq]
            rw [hr1]
            simpa using hci
        simp [this] at h
    · obtain ⟨r, hrq, hri⟩ := List.any_eq_true.1 h
      apply List.any_eq_true.2
      have hrid : r.id = i := by simpa using hri
      refine ⟨(i, r.blob), ?_, by simp⟩
      apply List.mem_flatMap.2
      refine ⟨r, hrq, ?_⟩
      apply List.mem_map.2
      refine ⟨i, ?_, rfl⟩
      apply List.mem_filter.2
      exact ⟨hi, by simpa using hrid.symm⟩
  · exact ⟨_, rfl, by decide, by decide⟩

/-! ## `shouldCache` policy (part_003 `buildClientInternal`) and the
single-flight write-through gate (`bulk_single_flight_getter.go`) -/

namespace HN

/-- `ItemStreamValue[*Item]`: exactly one of `Item`/`Err` is populated. -/
structure ISV where
  id : Nat
  item : Option Item
  err : Option String
deriving DecidableEq, Repr

/-- The `shouldCache` predicate configured by `buildClientInternal`:
`item.Err == nil && item.Item.Type != NullBody`. -/
def shouldCache (v : ISV) : Bool :=
  match v.err with
  | some _ => false
  | none =>
    match v.item with
    | some it => it.type != ItemType.nullBody
    | none => true

/-- A value fit for the in-memory layer: no error and not a null body. -/
def GoodValue (v : ISV) : Prop :=
  v.err = none ∧ ∀ it, v.item = some it → it.type ≠ ItemType.nullBody

/-- The cache write-through performed inside the single-flight getter's
wrapped `do` (`BulkSingleFlightGetter.Get`, step a): put only when
`shouldCache` approves. -/
def sfCacheStep (cache : MC.MapCache ISV) (now : Int) (k : Nat) (v : ISV) :
    MC.MapCache ISV :=
  if shouldCache v then cache.put now k v else cache

theorem goodValue_of_shouldCache {v : ISV} (h : shouldCache v = true) :
    GoodValue v := by
  unfold shouldCache at h
  cases herr : v.err with
  | some e => rw [herr] at h; exact absurd h (by simp)
  | none =>
    rw [herr] at h
    refine ⟨herr, ?_⟩
    intro it hit
    rw [hit] at h
    simpa using h

end HN

namespace MC

/-- Entries resident after a put: the inserted entry or a previously
resident one. -/
theorem mem_resident_put {c : MapCache V} {now : Int} {k : Nat} {v : V}
    {p : Nat × MCEntry V} (hp : p ∈ (c.put now k v).resident) :
    p = (k, ⟨now, v⟩) ∨ p ∈ c.resident := by
  unfold MapCache.put at hp
  by_cases hrot : now - c.lastPurge > c.ttl
  · rw [if_pos hrot] at hp
    have hp2 : p ∈ upsertA c.newGen k ⟨now, v⟩ := by
      cases hmi : c.mi <;>
        simpa [MapCache.resident, MapCache.newGen, MapCache.withNewGen,
          MapCache.withOldGen, hmi] using hp
    rcases mem_upsertA hp2 with h1 | h1
    · exact Or.inl h1
    · refine Or.inr ((resident_eq_gens c p).2 (Or.inr h1))
  · rw [if_neg hrot] at hp
    have hp2 : p ∈ c.oldGen ∨ p ∈ upsertA c.newGen k ⟨now, v⟩ := by
      cases hmi : c.mi <;>
        simpa [MapCache.resident, MapCache.oldGen, MapCache.newGen,
          MapCache.withNewGen, hmi, List.mem_append, or_comm] using hp
    rcases hp2 with h1 | h1
    · exact Or.inr ((resident_eq_gens c p).2 (Or.inl h1))
    · rcases mem_upsertA h1 with h2 | h2
      · exact Or.inl h2
      · exact Or.inr ((resident_eq_gens c p).2 (Or.inr h2))

end MC

namespace FC

theorem mem_upsertRow {db : List Row} {row r : Row} (h : r ∈ upsertRow db row) :
    r = row ∨ r ∈ db := by
  unfold upsertRow at h
  by_cases hx : db.any (fun q => q.id == row.id)
  · rw [if_pos hx] at h
    obtain ⟨q, hq, hqe⟩ := List.mem_map.1 h
    by_cases hk : q.id == row.id
    · rw [if_pos hk] at hqe
      exact Or.inl hqe.symm
    · rw [if_neg hk] at hqe
      exact Or.inr (hqe ▸ hq)
  · rw [if_neg hx] at h
    rcases List.mem_append.1 h with h1 | h1
    · exact Or.inr h1
    · exact Or.inl (by simpa using h1)

theorem collectPut_no_null (decode : String → Option (Nat × Int)) (now : Int)
    (blobs : List String) (rs : List Row)
    (h : collectPut decode now blobs = Except.ok rs) :
    ∀ r ∈ rs, r.blob ≠ "null" := by
  induction blobs generalizing rs with
  | nil =>
    simp only [collectPut, Except.ok.injEq] at h
    subst h
    simp
  | cons b rest ih =>
    by_cases hb : b = "null"
    · rw [collectPut, if_pos hb] at h
      exact ih rs h
    · rw [collectPut, if_neg hb] at h
      cases hd : decode b with
      | none => rw [hd] at h; exact absurd h (by simp)
      | some p =>
        rw [hd] at h
        cases hrest : collectPut decode now rest with
        | error e => rw [hrest] at h; exact absurd h (by simp [Except.map])
        | ok rs2 =>
          rw [hrest] at h
          simp only [Except.map, Except.ok.injEq] at h
          subst h
          intro r hr
          rcases List.mem_cons.1 hr with h1 | h1
          · subst h1
            simpa using hb
          · exact ih rs2 hrest r h1

theorem foldl_upsert_no_null (rs : List Row) :
    ∀ db, (∀ r ∈ db, r.blob ≠ "null") → (∀ r ∈ rs, r.blob ≠ "null") →
    ∀ r ∈ rs.foldl upsertRow db, r.blob ≠ "null" := by
  induction rs with
  | nil =>
    intro db hdb _
    simpa using hdb
  | cons x rs ih =>
    intro db hdb hrs
    simp only [List.foldl_cons]
    apply ih
    · intro r hr
      rcases mem_upsertRow hr with h1 | h1
      · rw [h1]
        exact hrs x (List.mem_cons_self x rs)
      · exact hdb r h1
    · intro r hr
      exact hrs r (List.mem_cons_of_mem x hr)

end FC

/-- C8: a blob equal to the four-byte JSON `null` literal is never written
to the persistent cache by `ItemFileCache.Put` (it is skipped before the
upsert), and the in-memory coalescing cache never becomes resident with a
value whose item has the null-body type or carries an error, because the
configured `shouldCache` predicate returns false for such values and the
single-flight getter writes through only when `shouldCache` approves. -/
theorem c8_null_never_cached (decode : String → Option (Nat × Int)) (now : Int)
    (db d : List FC.Row) (blobs : List String)
    (hdb : ∀ r ∈ db, r.blob ≠ "null")
    (hput : FC.fcPut decode now db blobs = Except.ok d)
    (cache : MC.MapCache HN.ISV) (tnow : Int) (k : Nat) (v : HN.ISV)
    (hcache : ∀ p ∈ cache.resident, HN.GoodValue p.2.value) :
    (∀ r ∈ d, r.blob ≠ "null") ∧
    (∀ p ∈ (HN.sfCacheStep cache tnow k v).resident, HN.GoodValue p.2.value) := by
  constructor
  · unfold FC.fcPut at hput
    cases hc : FC.collectPut decode now blobs with
    | error e => rw [hc] at hput; exact absurd hput (by simp [Except.map])
    | ok rs =>
      rw [hc] at hput
      simp only [Except.map, Except.ok.injEq] at hput
      subst hput
      exact FC.foldl_upsert_no_null rs db hdb (FC.collectPut_no_null decode now blobs rs hc)
  · intro p hp
    unfold HN.sfCacheStep at hp
    by_cases hsc : HN.shouldCache v
    · rw [if_pos hsc] at hp
      rcases MC.mem_resident_put hp with h1 | h1
      · rw [h1]
        exact HN.goodValue_of_shouldCache hsc
      · exact hcache p h1
    · rw [if_neg hsc] at hp
      exact hcache p hp

/-- Closed witness for C8: putting only a `null` blob leaves the database
empty of `null` rows, and a delivery carrying an error is not cached. -/
theorem c8_null_never_cached_witness :
    (∀ r ∈ ([] : List FC.Row), r.blob ≠ "null") ∧
    (FC.fcPut FC.scenarioDecode 60 [] ["null"] = Except.ok []) ∧
    ((∀ r ∈ ([] : List FC.Row), r.blob ≠ "null") ∧
      ∀ p ∈ (HN.sfCacheStep (MC.MapCache.init 10) 1 42
          ⟨42, none, some "fetch failed"⟩).resident,
        HN.GoodValue p.2.value) := by
  refine ⟨by simp, by rfl, ?_⟩
  exact c8_null_never_cached FC.scenarioDecode 60 [] [] ["null"] (by simp)
    (by rfl) (MC.MapCache.init 10) 1 42 ⟨42, none, some "fetch failed"⟩
    (by intro p hp; simp [MC.MapCache.resident, MC.MapCache.init] at hp)

/-! ## Single-flight bulk getter (`hn/core/bulk_single_flight_getter.go`)

The pending map `key → list-of-callbacks` decides dispatch: `addPending`
registers the caller's `do` under each requested key and returns the keys
that were not already pending (only those are forwarded to `inner.Get`).
On delivery, `removePending` captures and clears the callback list and
every captured callback is run (via `safeRunDo`) with the same value.

Overlapping `Get` calls are sequentialized as the order in which they
reach `addPending` under the mutex. -/

namespace SF

/-- The pending map: association list from key to callback ids in
registration order. -/
def Pending := List (Nat × List Nat)

def lookupP : Pending → Nat → Option (List Nat)
  | [], _ => none
  | (k, cbs) :: rest, key => if k = key then some cbs else lookupP rest key

/-- Go map assignment `pending[k] = cbs`. -/
def setP : Pending → Nat → List Nat → Pending
  | [], key, cbs => [(key, cbs)]
  | (k, old) :: rest, key, cbs =>
    if k = key then (k, cbs) :: rest else (k, old) :: setP rest key cbs

/-- Go `delete(pending, k)`. -/
def removeP (p : Pending) (key : Nat) : Pending :=
  p.filter (fun q => q.1 != key)

/-- `BulkSingleFlightGetter.addPending`: register `cb` under every key; a
key not yet pending gets a fresh singleton list and joins the remaining
(to-dispatch) list, a pending key only gets `cb` appended. -/
def addPending (p : Pending) (keys : List Nat) (cb : Nat) : Pending × List Nat :=
  match keys with
  | [] => (p, [])
  | k :: ks =>
    match lookupP p k with
    | some dos => addPending (setP p k (dos ++ [cb])) ks cb
    | none =>
      let r := addPending (setP p k [cb]) ks cb
      (r.1, k :: r.2)

/-- A sequence of overlapping `Get` calls `(keys, cb)` hitting `addPending`
in mutex order; returns the final pending map and each call's to-dispatch
(remaining) list. -/
def processCalls (p : Pending) : List (List Nat × Nat) → Pending × List (List Nat)
  | [] => (p, [])
  | c :: rest =>
    let r := addPending p c.1 c.2
    let r2 := processCalls r.1 rest
    (r2.1, r.2 :: r2.2)

/-- Delivery of value `v` for key `k` (the wrapped `do` of
`BulkSingleFlightGetter.Get`): capture and clear the pending callbacks,
then invoke every one of them with `(k, v)`. -/
def deliver (p : Pending) (k : Nat) (v : Nat) : (List (Nat × Nat)) × Pending :=
  (((lookupP p k).getD []).map (fun cb => (cb, v)), removeP p k)

theorem lookupP_setP (p : Pending) (key : Nat) (cbs : List Nat) (k : Nat) :
    lookupP (setP p key cbs) k = if key = k then some cbs else lookupP p k := by
  induction p with
  | nil =>
    by_cases h : key = k
    · simp [setP, lookupP, h]
    · simp [setP, lookupP, h]
  | cons q rest ih =>
    rcases q with ⟨k0, old⟩
    by_cases hq : k0 = key
    · subst hq
      by_cases h : k0 = k
      · subst h
        simp [setP, lookupP]
      · simp [setP, lookupP, h]
    · by_cases h : k0 = k
      · subst h
        have hkk : ¬ key = k0 := fun he => hq he.symm
        simp [setP, lookupP, hq, hkk]
      · simp [setP, lookupP, hq, h, ih]

/-- Effect of one `addPending` call on the registered callback list of a
key: every occurrence of `k` among the requested keys appends `cb` once, and
a key not previously pending becomes pending exactly when requested. -/
theorem lookupP_addPending (keys : List Nat) (p : Pending) (cb : Nat) (k : Nat) :
    lookupP (addPending p keys cb).1 k =
      match lookupP p k with
      | some l => some (l ++ List.replicate (keys.count k) cb)
      | none =>
        if k ∈ keys then some (List.replicate (keys.count k) cb) else none := by
  induction keys generalizing p with
  | nil => cases h : lookupP p k <;> simp [addPending, h]
  | cons key ks ih =>
    cases h : lookupP p key with
    | some dos =>
      have heq : (addPending p (key :: ks) cb).1 =
          (addPending (setP p key (dos ++ [cb])) ks cb).1 := by
        rw [addPending, h]
      rw [heq, ih, lookupP_setP]
      by_cases hkey : key = k
      · subst hkey
        rw [if_pos rfl, h]
        simp [List.count_cons, List.replicate_succ, List.append_assoc]
      · rw [if_neg hkey]
        have hkk : (k == key) = false := by
          simp only [beq_eq_false_iff_ne, ne_eq]
          omega
        have hkk2 : (key == k) = false := by
          simp only [beq_eq_false_iff_ne, ne_eq]
          omega
        have hcnt : (key :: ks).count k = ks.count k := by
          simp [List.count_cons, hkk, hkk2]
        have hmem : (k ∈ key :: ks) ↔ (k ∈ ks) := by
          simp only [List.mem_cons, or_iff_right_iff_imp]
          intro he
          exact absurd he.symm hkey
        rw [hcnt]
        cases hpk : lookupP p k with
        | some l => simp
        | none =>
          by_cases hm : k ∈ ks
          · simp [hm, hmem]
          · simp [hm, hmem]
    | none =>
      have heq : (addPending p (key :: ks) cb).1 =
          (addPending (setP p key [cb]) ks cb).1 := by
        rw [addPending, h]
      rw [heq, ih, lookupP_setP]
      by_cases hkey : key = k
      · subst hkey
        rw [if_pos rfl, h]
        simp [List.count_cons, List.replicate_succ]
      · rw [if_neg hkey]
        have hkk : (k == key) = false := by
          simp only [beq_eq_false_iff_ne, ne_eq]
          omega
        have hkk2 : (key == k) = false := by
          simp only [beq_eq_false_iff_ne, ne_eq]
          omega
        have hcnt : (key :: ks).count k = ks.count k := by
          simp [List.count_cons, hkk, hkk2]
        have hmem : (k ∈ key :: ks) ↔ (k ∈ ks) := by
          simp only [List.mem_cons, or_iff_right_iff_imp]
          intro he
          exact absurd he.symm hkey
        rw [hcnt]
        cases hpk : lookupP p k with
        | some l => simp
        | none =>
          by_cases hm : k ∈ ks
          · simp [hm, hmem]
          · simp [hm, hmem]

/-- One `addPending` call puts `k` on the to-dispatch list exactly when `k`
was not already pending and is requested, and then exactly once. -/
theorem count_addPending (keys : List Nat) (p : Pending) (cb : Nat) (k : Nat) :
    (addPending p keys cb).2.count k =
      if lookupP p k = none ∧ k ∈ keys then 1 else 0 := by
  induction keys generalizing p with
  | nil => simp [addPending]
  | cons key ks ih =>
    cases h : lookupP p key with
    | some dos =>
      have heq : (addPending p (key :: ks) cb).2 =
          (addPending (setP p key (dos ++ [cb])) ks cb).2 := by
        rw [addPending, h]
      rw [heq, ih, lookupP_setP]
      by_cases hkey : key = k
      · subst hkey
        simp [h]
      · rw [if_neg hkey]
        have hmem : (k ∈ key :: ks) ↔ (k ∈ ks) := by
          simp only [List.mem_cons, or_iff_right_iff_imp]
          intro he
          exact absurd he.symm hkey
        by_cases hpk : lookupP p k = none
        · simp [hpk, hmem]
        · simp [hpk, hmem]
    | none =>
      have heq : (addPending p (key :: ks) cb).2 =
          key :: (addPending (setP p key [cb]) ks cb).2 := by
        rw [addPending, h]
      rw [heq, List.count_cons, ih, lookupP_setP]
      by_cases hkey : key = k
      · subst hkey
        simp [h]
      · have hkk : (k == key) = false := by
          simp only [beq_eq_false_iff_ne, ne_eq]
          omega
        have hmem : (k ∈ key :: ks) ↔ (k ∈ ks) := by
          simp only [List.mem_cons, or_iff_right_iff_imp]
          intro he
          exact absurd he.symm hkey
        rw [if_neg hkey]
        by_cases hpk : lookupP p k = none
        · simp [hpk, hmem, hkk, hkey]
        · simp [hpk, hmem, hkk, hkey]

/-- Across a whole overlap, a key not pending at the start is dispatched to
the inner getter exactly by the first call requesting it. -/
theorem dispatch_processCalls (calls : List (List Nat × Nat)) (p : Pending)
    (k : Nat) :
    ((processCalls p calls).2.map (fun rem => rem.count k)).sum =
      if lookupP p k = none ∧ calls.any (fun c => k ∈ c.1) then 1 else 0 := by
  induction calls generalizing p with
  | nil => simp [processCalls]
  | cons c rest ih =>
    have hsum : ((processCalls p (c :: rest)).2.map (fun rem => rem.count k)).sum =
        (addPending p c.1 c.2).2.count k +
        ((processCalls (addPending p c.1 c.2).1 rest).2.map
          (fun rem => rem.count k)).sum := by
      simp [processCalls]
    rw [hsum, count_addPending, ih]
    cases hpk : lookupP p k with
    | some dos =>
      have h1 : ¬ lookupP (addPending p c.1 c.2).1 k = none := by
        rw [lookupP_addPending, hpk]
        simp
      simp [hpk, h1]
    | none =>
      by_cases hmem : k ∈ c.1
      · have h1 : ¬ lookupP (addPending p c.1 c.2).1 k = none := by
          rw [lookupP_addPending, hpk]
          simp [hmem]
        simp [hpk, hmem, h1]
      · have h1 : lookupP (addPending p c.1 c.2).1 k = none := by
          rw [lookupP_addPending, hpk]
          simp [hmem]
        rw [h1]
        have hd : (decide (k ∈ c.1)) = false := decide_eq_false hmem
        rw [List.any_cons, hd, Bool.false_or]
        simp [hmem]

theorem lookupP_processCalls_acc (calls : List (List Nat × Nat)) (p : Pending)
    (k : Nat) (acc : List Nat) (h : lookupP p k = some acc)
    (hone : ∀ c ∈ calls, c.1.count k = 1) :
    lookupP (processCalls p calls).1 k =
      some (acc ++ calls.map (fun c => c.2)) := by
  induction calls generalizing p acc with
  | nil => simpa [processCalls] using h
  | cons c rest ih =>
    have hstep : (processCalls p (c :: rest)).1 =
        (processCalls (addPending p c.1 c.2).1 rest).1 := by
      simp [processCalls]
    have h1 : lookupP (addPending p c.1 c.2).1 k = some (acc ++ [c.2]) := by
      rw [lookupP_addPending, h, hone c (List.mem_cons_self c rest)]
      simp
    rw [hstep, ih (addPending p c.1 c.2).1 (acc ++ [c.2]) h1
      (fun d hd => hone d (List.mem_cons_of_mem c hd))]
    simp

/-- After the overlap, the pending list for `k` holds exactly the
overlapping callers' callbacks in registration order. -/
theorem lookupP_processCalls (calls : List (List Nat × Nat)) (p : Pending)
    (k : Nat) (hnone : lookupP p k = none)
    (hone : ∀ c ∈ calls, c.1.count k = 1) (hne : calls ≠ []) :
    lookupP (processCalls p calls).1 k = some (calls.map (fun c => c.2)) := by
  cases calls with
  | nil => exact absurd rfl hne
  | cons c rest =>
    have hstep : (processCalls p (c :: rest)).1 =
        (processCalls (addPending p c.1 c.2).1 rest).1 := by
      simp [processCalls]
    have hmem : k ∈ c.1 := by
      have := hone c (List.mem_cons_self c rest)
      have hpos : 0 < c.1.count k := by omega
      exact List.count_pos_iff.1 hpos
    have h1 : lookupP (addPending p c.1 c.2).1 k = some [c.2] := by
      rw [lookupP_addPending, hnone, hone c (List.mem_cons_self c rest)]
      simp [hmem]
    rw [hstep, lookupP_processCalls_acc rest (addPending p c.1 c.2).1 k [c.2] h1
      (fun d hd => hone d (List.mem_cons_of_mem c hd))]
    simp

theorem lookupP_removeP (p : Pending) (k : Nat) :
    lookupP (removeP p k) k = none := by
  induction p with
  | nil => rfl
  | cons q rest ih =>
    rcases q with ⟨k0, cbs0⟩
    rw [removeP, List.filter_cons]
    by_cases h : k0 = k
    · have hd : (k0 != k) = false := by simp [h]
      rw [hd]
      simpa [removeP] using ih
    · have hd : (k0 != k) = true := by simp [h]
      rw [hd]
      simpa [removeP, lookupP, h] using ih

/-! ### Delivery callbacks and panic recovery (`safeRunDo`, C6)

On delivery, `BulkSingleFlightGetter.Get` runs every captured callback
through `safeRunDo`, which recovers a panic into an error return.  The loop
accumulates with `err = errors.Join(g.safeRunDo(do, key, value))` -- the
join has a single argument, so each iteration REPLACES `err` -- and then
panics with `err` when it is non-nil; that panic is recovered by the worker
pool's `workerLoopInner`, which performs one non-blocking send on `errCh`. -/

/-- A delivery callback: a counting callback or one that panics. -/
inductive CB where
  | counter (i : Nat)
  | panicking
deriving DecidableEq, Repr

/-- `safeRunDo`: invoke the callback; a panic is recovered and returned as
an `ErrDoPanic` error, otherwise nil. -/
def safeRunDo : CB → Option String
  | CB.counter _ => none
  | CB.panicking => some "do panic: boom"

/-- `errors.Join` applied to a single argument returns that argument. -/
def joinOne (e : Option String) : Option String := e

/-- The callback loop of the wrapped `do`: every callback is invoked (the
first component lists the counters reached, in order), and the error
variable after the loop, computed exactly as the code does --
`err = errors.Join(safeRunDo(do))` on each iteration. -/
def runDos (dos : List CB) : List Nat × Option String :=
  (dos.filterMap (fun cb =>
      match cb with
      | CB.counter i => some i
      | CB.panicking => none),
   dos.foldl (fun _ cb => joinOne (safeRunDo cb)) none)

/-- Errors reaching `errCh`: the wrapped `do` panics only when the final
`err` is non-nil, and `workerLoopInner` then recovers it into one
non-blocking send (`space` says whether `errCh` has room). -/
def errChSends (dos : List CB) (space : Bool) : Nat :=
  match (runDos dos).2 with
  | some _ => if space then 1 else 0
  | none => 0

end SF

/-- C2: for any set of overlapping `Get` calls on the single-flight bulk
getter that request the same key, the inner getter is invoked at most once
for that key during the overlap (and exactly once when there is at least
one call, the first one to register), and on delivery each overlapping
caller's `do` callback is invoked exactly once for that key -- the
invocation list is exactly the callers' callbacks in registration order,
every one receiving the same value. -/
theorem c2_single_flight_coalesce (p : SF.Pending)
    (calls : List (List Nat × Nat)) (k v : Nat)
    (hnone : SF.lookupP p k = none)
    (hone : ∀ c ∈ calls, c.1.count k = 1) (hne : calls ≠ []) :
    (∀ (q : SF.Pending) (cs : List (List Nat × Nat)),
      ((SF.processCalls q cs).2.map (fun rem => rem.count k)).sum ≤ 1) ∧
    ((SF.processCalls p calls).2.map (fun rem => rem.count k)).sum = 1 ∧
    ((SF.deliver (SF.processCalls p calls).1 k v).1 =
      calls.map (fun c => (c.2, v))) ∧
    SF.lookupP (SF.deliver (SF.processCalls p calls).1 k v).2 k = none := by
  refine ⟨?_, ?_, ?_, ?_⟩
  · intro q cs
    rw [SF.dispatch_processCalls]
    split <;> omega
  · rw [SF.dispatch_processCalls]
    have hany : calls.any (fun c => k ∈ c.1) = true := by
      cases calls with
      | nil => exact absurd rfl hne
      | cons c rest =>
        apply List.any_eq_true.2
        refine ⟨c, List.mem_cons_self c rest, ?_⟩
        have hcnt := hone c (List.mem_cons_self c rest)
        have hpos : 0 < c.1.count k := by omega
        simpa using List.count_pos_iff.1 hpos
    simp [hnone, hany]
  · unfold SF.deliver
    rw [SF.lookupP_processCalls calls p k hnone hone hne]
    simp
  · unfold SF.deliver
    exact SF.lookupP_removeP _ k

/-- Closed witness for C2: three overlapping callers for key 42 (echoing
the repository's single-flight test); only the first dispatches, and
delivery of 420 invokes callbacks 1, 2, 3 once each with 420. -/
theorem c2_single_flight_coalesce_witness :
    SF.lookupP ([] : SF.Pending) 42 = none ∧
    (([([42], 1), ([42], 2), ([42], 3)] : List (List Nat × Nat)) ≠ []) ∧
    ((SF.processCalls [] [([42], 1), ([42], 2), ([42], 3)]).2.map
      (fun rem => rem.count 42)).sum = 1 ∧
    (SF.deliver (SF.processCalls []
        [([42], 1), ([42], 2), ([42], 3)]).1 42 420).1 =
      [(1, 420), (2, 420), (3, 420)] := by
  refine ⟨rfl, by decide, ?_, ?_⟩
  · exact (c2_single_flight_coalesce [] [([42], 1), ([42], 2), ([42], 3)] 42 420
      rfl (by decide) (by decide)).2.1
  · exact (c2_single_flight_coalesce [] [([42], 1), ([42], 2), ([42], 3)] 42 420
      rfl (by decide) (by decide)).2.2.1

/-- C6: evaluation of the delivery code at the claim's literal scenario.
With callbacks `[counter 1, panicking, counter 2]` registered for the key,
both counting callbacks are still invoked (counters `[1, 2]` are reached),
but the loop's error variable -- `err = errors.Join(g.safeRunDo(...))`,
which REPLACES `err` on every iteration instead of accumulating -- ends nil
because the last callback succeeds, so no panic is re-raised and ZERO
errors reach `errCh`, not the one `CallbackPanic` error the claim (and the
repository's own test `TestSingleFlightDedupWithPanicMiddle`) requires.
Only when the panicking callback happens to run last does one error reach
`errCh`. -/
theorem c6_callback_panic_dropped :
    (SF.runDos [SF.CB.counter 1, SF.CB.panicking, SF.CB.counter 2]).1 = [1, 2] ∧
    (SF.runDos [SF.CB.counter 1, SF.CB.panicking, SF.CB.counter 2]).2 = none ∧
    SF.errChSends [SF.CB.counter 1, SF.CB.panicking, SF.CB.counter 2] true = 0 ∧
    (SF.runDos [SF.CB.counter 1, SF.CB.counter 2, SF.CB.panicking]).2.isSome = true ∧
    SF.errChSends [SF.CB.counter 1, SF.CB.counter 2, SF.CB.panicking] true = 1 :=
  ⟨rfl, rfl, rfl, rfl, rfl⟩

/-! ## Item stream ordered search (`hn/item_stream.go`)

`SearchOrdered` keeps a staging map `all` of results that arrived out of
order.  Each driver round reads a batch of delivered results
(`greedyRead`), stages them (`searchOrderedBatch`), consumes the longest
staged prefix of the pending id list -- invoking `acc` for each consumed id
in order and collecting the returned `moreIDs` -- then drops the consumed
prefix and appends the collected `moreIDs`.

The embedding abstracts the channel mechanics into the sequence `batches`
of delivered id batches (an arbitrary delivery schedule, out-of-order
included; values are keyed by id, and `acc` is modeled by the `more`
function on ids with `keepGoing` true and no errors, the accepted-id happy
path the claim describes).  The send step (`trySendSlice`) only decides
which ids get delivered, never the consumption order, so it is absorbed
into `batches`. -/

namespace IS

/-- `all[item.ID] = item`: stage a delivered id (the staging map keyed by
id; re-delivery overwrites, so membership is what matters). -/
def stage (all : List Nat) (id : Nat) : List Nat :=
  if id ∈ all then all else id :: all

/-- Stage a whole delivered batch. -/
def stageAll (all : List Nat) (batch : List Nat) : List Nat :=
  batch.foldl stage all

/-- The consumption loop of `searchOrderedBatch`: starting from the head of
the pending ids, consume (and delete from the staging map) while the next
id is staged; stop at the first id still missing.  Returns the consumed
prefix (the ids passed to `acc`, in order) and the remaining staging map. -/
def consume (all : List Nat) : List Nat → List Nat × List Nat
  | [] => ([], all)
  | id :: rest =>
    if id ∈ all then
      let r := consume (all.erase id) rest
      (id :: r.1, r.2)
    else
      ([], all)

/-- The `SearchOrdered` driver loop over a delivery schedule: while pending
ids remain and batches arrive, stage the batch, consume the staged prefix
(invoking `acc`), drop it and append the `moreIDs` the accumulator
returned (`ids = ids[consumed:]; ids = append(ids, newIDs...)`).
Returns `(acc invocation sequence, final pending ids, final staging)`. -/
def soLoop (more : Nat → List Nat) :
    List (List Nat) → List Nat → List Nat → List Nat × List Nat × List Nat
  | [], all, ids => ([], ids, all)
  | b :: bs, all, ids =>
    if ids = [] then ([], ids, all)
    else
      let all1 := stageAll all b
      let r := consume all1 ids
      let ids2 := ids.drop r.1.length ++ r.1.flatMap more
      let rest := soLoop more bs r.2 ids2
      (r.1 ++ rest.1, rest.2.1, rest.2.2)

/-- The ideal FIFO traversal the spec describes: pop the queue head, invoke
the accumulator, push its `moreIDs` at the back; `n` bounds the number of
pops. -/
def fifoN (more : Nat → List Nat) : Nat → List Nat → List Nat
  | 0, _ => []
  | _ + 1, [] => []
  | n + 1, a :: q => a :: fifoN more n (q ++ more a)

theorem fifoN_nil (more : Nat → List Nat) (m : Nat) : fifoN more m [] = [] := by
  cases m <;> rfl

/-- `consume` consumes a prefix of the pending ids. -/
theorem consume_take (all ids : List Nat) :
    (consume all ids).1 = ids.take (consume all ids).1.length ∧
      (consume all ids).1.length ≤ ids.length := by
  induction ids generalizing all with
  | nil => simp [consume]
  | cons id rest ih =>
    by_cases h : id ∈ all
    · have h2 := ih (all.erase id)
      simp only [consume, if_pos h]
      constructor
      · simp only [List.length_cons, List.take_succ_cons]
        rw [← h2.1]
      · simp only [List.length_cons]
        exact Nat.succ_le_succ h2.2
    · simp [consume, h]

/-- Splitting a FIFO traversal at a consumed prefix: popping `c` leading
ids and then continuing equals continuing from the queue with that prefix
dropped and its `moreIDs` appended. -/
theorem fifoN_split (more : Nat → List Nat) (c : Nat) :
    ∀ (q : List Nat) (m : Nat), c ≤ q.length →
      fifoN more (c + m) q =
        q.take c ++ fifoN more m (q.drop c ++ (q.take c).flatMap more) := by
  induction c with
  | zero =>
    intro q m _
    simp
  | succ c ih =>
    intro q m hc
    cases q with
    | nil => simp at hc
    | cons a q2 =>
      have hc2 : c ≤ q2.length := by simpa using hc
      have hstep : c + 1 + m = (c + m) + 1 := by omega
      rw [hstep]
      show a :: fifoN more (c + m) (q2 ++ more a) = _
      rw [ih (q2 ++ more a) m (Nat.le_trans hc2 (by simp))]
      rw [List.take_append_of_le_length hc2, List.drop_append_of_le_length hc2]
      simp [List.append_assoc]

/-- Invariant of the driver loop: the accumulated invocation sequence is
always an exact prefix of the ideal FIFO traversal, and the final pending
ids are exactly the unprocessed remainder of that traversal. -/
theorem soLoop_fifo (more : Nat → List Nat) (bs : List (List Nat)) :
    ∀ (all ids : List Nat) (m : Nat),
      fifoN more ((soLoop more bs all ids).1.length + m) ids =
        (soLoop more bs all ids).1 ++
          fifoN more m (soLoop more bs all ids).2.1 := by
  induction bs with
  | nil =>
    intro all ids m
    simp [soLoop]
  | cons b rest ih =>
    intro all ids m
    by_cases hids : ids = []
    · subst hids
      simp [soLoop, fifoN_nil]
    · have hT := consume_take (stageAll all b) ids
      have hsplit := fifoN_split more (consume (stageAll all b) ids).1.length ids
        (((soLoop more rest (consume (stageAll all b) ids).2
          (ids.drop (consume (stageAll all b) ids).1.length ++
            (consume (stageAll all b) ids).1.flatMap more)).1.length) + m) hT.2
      have hunfold : soLoop more (b :: rest) all ids =
          ((consume (stageAll all b) ids).1 ++
            (soLoop more rest (consume (stageAll all b) ids).2
              (ids.drop (consume (stageAll all b) ids).1.length ++
                (consume (stageAll all b) ids).1.flatMap more)).1,
           (soLoop more rest (consume (stageAll all b) ids).2
              (ids.drop (consume (stageAll all b) ids).1.length ++
                (consume (stageAll all b) ids).1.flatMap more)).2.1,
           (soLoop more rest (consume (stageAll all b) ids).2
              (ids.drop (consume (stageAll all b) ids).1.length ++
                (consume (stageAll all b) ids).1.flatMap more)).2.2) := by
        rw [soLoop, if_neg hids]
      rw [hunfold]
      simp only [List.length_append]
      rw [Nat.add_assoc, hsplit, ← hT.1, ih]
      simp [List.append_assoc]

end IS

/-- C3: `SearchOrdered` invokes the accumulator exactly once per accepted
id, and the sequence of ids passed to the accumulator equals the input id
sequence followed by accumulator-returned `moreIDs` in FIFO append order,
even when the underlying bulk getter delivers results out of order: for
EVERY delivery schedule `batches`, the invocation sequence is an exact
prefix of the ideal FIFO traversal of `ids0` under `more`, and when the
loop drains all pending ids it equals the complete FIFO traversal (so each
accepted id is passed to the accumulator exactly as often as the FIFO
traversal visits it -- exactly once whenever that traversal has no
duplicates). -/
theorem c3_search_ordered_fifo (more : Nat → List Nat)
    (batches : List (List Nat)) (ids0 : List Nat) :
    (∀ m, IS.fifoN more ((IS.soLoop more batches [] ids0).1.length + m) ids0 =
      (IS.soLoop more batches [] ids0).1 ++
        IS.fifoN more m (IS.soLoop more batches [] ids0).2.1) ∧
    (IS.fifoN more (IS.soLoop more batches [] ids0).1.length ids0 =
      (IS.soLoop more batches [] ids0).1) ∧
    ((IS.soLoop more batches [] ids0).2.1 = [] →
      ∀ m, (IS.soLoop more batches [] ids0).1.length ≤ m →
        IS.fifoN more m ids0 = (IS.soLoop more batches [] ids0).1) ∧
    ((IS.fifoN more (IS.soLoop more batches [] ids0).1.length ids0).Nodup →
      (IS.soLoop more batches [] ids0).1.Nodup) := by
  have hmain := IS.soLoop_fifo more batches [] ids0
  have hzero : IS.fifoN more ((IS.soLoop more batches [] ids0).1.length) ids0 =
      (IS.soLoop more batches [] ids0).1 := by
    have := hmain 0
    simpa [IS.fifoN] using this
  refine ⟨hmain, hzero, ?_, ?_⟩
  · intro hempty m hm
    have := hmain (m - (IS.soLoop more batches [] ids0).1.length)
    rw [hempty, IS.fifoN_nil] at this
    have hms : (IS.soLoop more batches [] ids0).1.length +
        (m - (IS.soLoop more batches [] ids0).1.length) = m := by omega
    rw [hms] at this
    simpa using this
  · intro hnd
    rw [hzero] at hnd
    exact hnd

/-- Closed witness for C3: input ids `[1, 2, 3]` with `acc` appending id 5
after id 2, delivered out of order as batches `[3,1]`, `[2]`, `[5]`: the
accumulator still sees exactly `[1, 2, 3, 5]`, the input order followed by
the appended id. -/
theorem c3_search_ordered_fifo_witness :
    ((IS.soLoop (fun id => if id = 2 then [5] else [])
        [[3, 1], [2], [5]] [] [1, 2, 3]).1 = [1, 2, 3, 5] ∧
      (IS.soLoop (fun id => if id = 2 then [5] else [])
        [[3, 1], [2], [5]] [] [1, 2, 3]).2.1 = []) ∧
    IS.fifoN (fun id => if id = 2 then [5] else []) 4 [1, 2, 3] =
      (IS.soLoop (fun id => if id = 2 then [5] else [])
        [[3, 1], [2], [5]] [] [1, 2, 3]).1 := by
  refine ⟨⟨by decide, by decide⟩, ?_⟩
  exact (c3_search_ordered_fifo (fun id => if id = 2 then [5] else [])
    [[3, 1], [2], [5]] [1, 2, 3]).2.2.1 (by decide) 4 (by decide)

/-! ## Item stream driver lifecycle (`newItemStream`, C5)

The driver loop: read a batch of ids from `idCh` (`greedyRead`), add the
batch size to the wait-group, call the bulk getter -- whose callback does a
non-blocking send of the stream value on `resultCh` (on refusal an
`errResultChannelFull` error goes to `errCh` instead) -- and for each id
the getter rejected, push an `errRequestChannelFull` error value (with the
id in the message) on `resultCh` directly.  When `idCh` closes: wait for
in-flight work, join any deferred `errCh` errors into one trailing error
value, and close `resultCh` -- exactly once, in a `defer`.

Oracles: `accept r` is how many ids of round `r`'s batch the bulk getter
queues (`DoWork` rejects a contiguous tail), `sendOk r i` is whether the
i-th callback's non-blocking `resultCh` send succeeds (always true while
the consumer honors the `maxInFlight` discipline, which bounds `resultCh`
occupancy by its capacity). -/

namespace IS

/-- A value observed on `resultCh`. -/
inductive SVal where
  | item (id : Nat)
  | refused (id : Nat)
  | joinedErr
deriving DecidableEq, Repr

/-- A `resultCh` event: a value or the channel closing. -/
inductive Ev where
  | val (v : SVal)
  | closed
deriving DecidableEq, Repr

/-- One driver round: values sent on `resultCh`, and the number of errors
diverted to `errCh` because a non-blocking result send failed. -/
def roundOut (accept : Nat → Nat) (sendOk : Nat → Nat → Bool) (r : Nat)
    (batch : List Nat) : List SVal × Nat :=
  let a := min (accept r) batch.length
  let acc := batch.take a
  let rej := batch.drop a
  ((acc.enum.filterMap fun p =>
      if sendOk r p.1 then some (SVal.item p.2) else none) ++
    rej.map SVal.refused,
   (acc.enum.filter fun p => !sendOk r p.1).length)

/-- All driver rounds (the batches are indexed by round). -/
def runRounds (accept : Nat → Nat) (sendOk : Nat → Nat → Bool) :
    List (Nat × List Nat) → List SVal × Nat
  | [] => ([], 0)
  | rb :: rest =>
    let ro := roundOut accept sendOk rb.1 rb.2
    let rr := runRounds accept sendOk rest
    (ro.1 ++ rr.1, ro.2 + rr.2)

/-- The full `resultCh` trace of one stream: round outputs, then the joined
trailing error value when any `errCh` error was recorded, then the single
close. -/
def itemStreamTrace (accept : Nat → Nat) (sendOk : Nat → Nat → Bool)
    (batches : List (List Nat)) : List Ev :=
  let rr := runRounds accept sendOk batches.enum
  rr.1.map Ev.val ++
    (if rr.2 > 0 then [Ev.val SVal.joinedErr] else []) ++ [Ev.closed]

theorem count_map_item (l : List Nat) (id : Nat) :
    (l.map SVal.item).count (SVal.item id) = l.count id := by
  induction l with
  | nil => rfl
  | cons x xs ih =>
    by_cases h : x = id
    · simp [List.count_cons, h, ih]
    · have h1 : (SVal.item x == SVal.item id) = false := by
        simp [h]
      have h2 : (x == id) = false := by
        simp [h]
      simp [List.count_cons, h1, h2, ih]

theorem count_map_refused_item (l : List Nat) (id : Nat) :
    (l.map SVal.refused).count (SVal.item id) = 0 := by
  induction l with
  | nil => rfl
  | cons x xs ih => simp [List.count_cons, ih]

theorem count_map_refused (l : List Nat) (id : Nat) :
    (l.map SVal.refused).count (SVal.refused id) = l.count id := by
  induction l with
  | nil => rfl
  | cons x xs ih =>
    by_cases h : x = id
    · simp [List.count_cons, h, ih]
    · have h1 : (SVal.refused x == SVal.refused id) = false := by
        simp [h]
      have h2 : (x == id) = false := by
        simp [h]
      simp [List.count_cons, h1, h2, ih]

theorem count_map_item_refused (l : List Nat) (id : Nat) :
    (l.map SVal.item).count (SVal.refused id) = 0 := by
  induction l with
  | nil => rfl
  | cons x xs ih => simp [List.count_cons, ih]

/-- Under the no-overflow discipline, one round delivers exactly one value
per id of its batch: the accepted prefix as items, the rejected tail as
refusal errors, and nothing on `errCh`. -/
theorem roundOut_hok (accept : Nat → Nat) (sendOk : Nat → Nat → Bool)
    (hok : ∀ r i, sendOk r i = true) (r : Nat) (batch : List Nat) :
    (roundOut accept sendOk r batch).1 =
      (batch.take (min (accept r) batch.length)).map SVal.item ++
        (batch.drop (min (accept r) batch.length)).map SVal.refused ∧
    (roundOut accept sendOk r batch).2 = 0 := by
  unfold roundOut
  constructor
  · simp only [hok, if_true]
    have h1 : ∀ (l : List (Nat × Nat)),
        (l.filterMap fun p => some (SVal.item p.2)) =
          l.map (fun p => SVal.item p.2) := by
      intro l
      induction l with
      | nil => rfl
      | cons x xs ih => simp [List.filterMap_cons, ih]
    rw [h1]
    congr 1
    rw [show (fun p : Nat × Nat => SVal.item p.2) =
      SVal.item ∘ Prod.snd from rfl, ← List.map_map, List.enum_map_snd]
  · simp [hok]

/-- All rounds together, in the happy path: no `errCh` diversions, one
value per batched id, and per-id value counts match the batch counts. -/
theorem runRounds_hok (accept : Nat → Nat) (sendOk : Nat → Nat → Bool)
    (hok : ∀ r i, sendOk r i = true) (rbs : List (Nat × List Nat)) :
    (runRounds accept sendOk rbs).2 = 0 ∧
    (runRounds accept sendOk rbs).1.length =
      (rbs.map (fun rb => rb.2.length)).sum ∧
    ∀ id, (runRounds accept sendOk rbs).1.count (SVal.item id) +
        (runRounds accept sendOk rbs).1.count (SVal.refused id) =
      (rbs.map (fun rb => rb.2.count id)).sum := by
  induction rbs with
  | nil => simp [runRounds]
  | cons rb rest ih =>
    obtain ⟨ho1, ho2⟩ := roundOut_hok accept sendOk hok rb.1 rb.2
    refine ⟨?_, ?_, ?_⟩
    · simp [runRounds, ho2, ih.1]
    · have hlen : (rb.2.take (min (accept rb.1) rb.2.length)).length +
          (rb.2.drop (min (accept rb.1) rb.2.length)).length = rb.2.length := by
        simp
      simp only [runRounds, List.length_append, List.map_cons, List.sum_cons, ho1,
        List.length_map, ih.2.1]
      omega
    · intro id
      have hcnt : (rb.2.take (min (accept rb.1) rb.2.length)).count id +
          (rb.2.drop (min (accept rb.1) rb.2.length)).count id = rb.2.count id := by
        rw [← List.count_append, List.take_append_drop]
      simp only [runRounds, List.count_append, List.map_cons, List.sum_cons, ho1]
      rw [count_map_item, count_map_refused, count_map_refused_item,
        count_map_item_refused]
      have hih := ih.2.2 id
      omega

end IS

/-- C5: the item stream's result channel is closed exactly once, and only
after every id accepted on the id channel has produced exactly one stream
value (an item value for ids the bulk getter queued, or an
enqueue-refusal error value for ids it rejected): under the `maxInFlight`
discipline (`sendOk` always true, so no result send overflows), the trace
is the per-round values followed by the single close; the number of stream
values equals the number of ids read from the id channel; and per id, item
values plus refusal values match the id's occurrences across batches. -/
theorem c5_stream_close_exactly_once (accept : Nat → Nat)
    (sendOk : Nat → Nat → Bool) (batches : List (List Nat))
    (hok : ∀ r i, sendOk r i = true) :
    (IS.itemStreamTrace accept sendOk batches =
      (IS.runRounds accept sendOk batches.enum).1.map IS.Ev.val ++
        [IS.Ev.closed]) ∧
    (IS.itemStreamTrace accept sendOk batches).count IS.Ev.closed = 1 ∧
    (IS.itemStreamTrace accept sendOk batches).getLast? = some IS.Ev.closed ∧
    (IS.runRounds accept sendOk batches.enum).1.length =
      (batches.map List.length).sum ∧
    ∀ id, (IS.runRounds accept sendOk batches.enum).1.count (IS.SVal.item id) +
        (IS.runRounds accept sendOk batches.enum).1.count (IS.SVal.refused id) =
      (batches.map (fun b => b.count id)).sum := by
  obtain ⟨h0, h1, h2⟩ := IS.runRounds_hok accept sendOk hok batches.enum
  have henum : ∀ f : List Nat → Nat,
      (batches.enum.map (fun rb => f rb.2)).sum = (batches.map f).sum := by
    intro f
    rw [show (fun rb : Nat × List Nat => f rb.2) = f ∘ Prod.snd from rfl,
      ← List.map_map, List.enum_map_snd]
  have htrace : IS.itemStreamTrace accept sendOk batches =
      (IS.runRounds accept sendOk batches.enum).1.map IS.Ev.val ++
        [IS.Ev.closed] := by
    simp [IS.itemStreamTrace, h0]
  have hnoclose :
      ((IS.runRounds accept sendOk batches.enum).1.map IS.Ev.val).count
        IS.Ev.closed = 0 := by
    apply List.count_eq_zero.2
    intro hmem
    obtain ⟨v, _, hv⟩ := List.mem_map.1 hmem
    exact IS.Ev.noConfusion hv
  refine ⟨htrace, ?_, ?_, ?_, ?_⟩
  · rw [htrace, List.count_append, hnoclose]
    rfl
  · rw [htrace]
    simp
  · rw [h1, henum]
  · intro id
    rw [h2 id, henum (fun b => b.count id)]

/-- Closed witness for C5: two batched rounds with one refusal; the trace
has one value per id and a single trailing close. -/
theorem c5_stream_close_exactly_once_witness :
    (∀ r i, (fun _ _ => true : Nat → Nat → Bool) r i = true) ∧
    IS.itemStreamTrace (fun _ => 1) (fun _ _ => true) [[7, 8], [9]] =
      [IS.Ev.val (IS.SVal.item 7), IS.Ev.val (IS.SVal.refused 8),
        IS.Ev.val (IS.SVal.item 9), IS.Ev.closed] ∧
    (IS.itemStreamTrace (fun _ => 1) (fun _ _ => true)
      [[7, 8], [9]]).count IS.Ev.closed = 1 := by
  refine ⟨fun r i => rfl, by decide, ?_⟩
  exact (c5_stream_close_exactly_once (fun _ => 1) (fun _ _ => true)
    [[7, 8], [9]] (fun r i => rfl)).2.1

/-! ## Active-items frontier scan (`unl/unl.go`, `Client.GetActive`)

State of the scan: the accumulated item set `all`, the pending worklist
`queue` (the stream's pending ids, processed here in FIFO order -- the
sequentialized schedule of `SearchUnordered`), the descending frontier
`next`, `largestKnownInactiveID` (`lki`), and the `queuedAsParent` set
(`qap`).  `scanStep` is the accumulator passed to `SearchUnordered`;
`scanRun` drives the worklist with explicit fuel. -/

namespace Scan

structure ScanState where
  all : Finset Nat
  queue : List Nat
  next : Nat
  lki : Nat
  qap : Finset Nat
deriving DecidableEq

/-- `time.Unix(item.Time, 0).After(activeAfter) && !item.Dead && !item.Deleted`. -/
def isActive (activeAfter : Int) (it : HN.Item) : Bool :=
  activeAfter < it.time && !it.dead && !it.deleted

/-- `getActiveTryEnqueueParent`: if the item has a parent not yet queued as
parent, record it in `qap` and append it to `moreIDs`. -/
def tryEnqueueParent (it : HN.Item) (qap : Finset Nat) :
    Finset Nat × List Nat :=
  match it.parent with
  | none => (qap, [])
  | some p => if p ∈ qap then (qap, []) else (insert p qap, [p])

/-- `getActiveTryEnqueueNextID`: decrement `next` past ids already queued
as parents while it exceeds `lki`; emit the first id that is neither, then
decrement once more.  Returns the new `next` and the emitted id (if any). -/
def tryEnqueueNextID (lki : Nat) (qap : Finset Nat) : Nat → Nat × Option Nat
  | 0 => (0, none)
  | n + 1 =>
    if lki < n + 1 then
      if n + 1 ∈ qap then tryEnqueueNextID lki qap n
      else (n, some (n + 1))
    else (n + 1, none)

/-- The accumulator of `Client.GetActive`: classify the item; inactive items
not queued as a parent only bump `lki`; retained items join `all`, may
enqueue their parent, and advance the descending frontier. -/
def scanStep (activeAfter : Int) (items : Nat → HN.Item) (st : ScanState)
    (id : Nat) : ScanState × List Nat :=
  let it := items id
  let active := isActive activeAfter it
  let lki1 := if active then st.lki else max id st.lki
  if !active && id ∉ st.qap then
    ({ st with lki := lki1 }, [])
  else
    let pq := tryEnqueueParent it st.qap
    let nq := tryEnqueueNextID lki1 pq.1 st.next
    let more := match nq.2 with
      | some e => pq.2 ++ [e]
      | none => pq.2
    ({ all := insert id st.all, queue := st.queue, next := nq.1,
       lki := lki1, qap := pq.1 }, more)

/-- The `SearchUnordered` worklist, sequentialized FIFO: pop an id, run the
accumulator, append the returned `moreIDs`. -/
def scanRun (activeAfter : Int) (items : Nat → HN.Item) :
    Nat → ScanState → ScanState
  | 0, st => st
  | fuel + 1, st =>
    match st.queue with
    | [] => st
    | id :: rest =>
      let r := scanStep activeAfter items { st with queue := rest } id
      scanRun activeAfter items fuel { r.1 with queue := r.1.queue ++ r.2 }

/-- The seed ids `[maxID - K .. maxID]` (`K = itemStream.MaxInFlight()`). -/
def seed (maxID K : Nat) : List Nat :=
  (List.range (K + 1)).map (fun i => maxID - K + i)

/-- The initial scan state: seeded queue, `next` just below the seed,
`largestKnownInactiveID` 0, empty `queuedAsParent`. -/
def initState (maxID K : Nat) : ScanState :=
  { all := ∅, queue := seed maxID K, next := maxID - K - 1, lki := 0, qap := ∅ }

theorem tryNext_le (lki : Nat) (qap : Finset Nat) (n : Nat) :
    (tryEnqueueNextID lki qap n).1 ≤ n := by
  induction n with
  | zero => simp [tryEnqueueNextID]
  | succ n ih =>
    unfold tryEnqueueNextID
    by_cases h1 : lki < n + 1
    · rw [if_pos h1]
      by_cases h2 : n + 1 ∈ qap
      · rw [if_pos h2]
        omega
      · rw [if_neg h2]
        omega
    · rw [if_neg h1]

theorem tryNext_emit (lki : Nat) (qap : Finset Nat) (n : Nat) :
    ∀ e, (tryEnqueueNextID lki qap n).2 = some e →
      (tryEnqueueNextID lki qap n).1 + 1 = e ∧ e ≤ n ∧ lki < e ∧ e ∉ qap := by
  induction n with
  | zero => simp [tryEnqueueNextID]
  | succ n ih =>
    intro e he
    unfold tryEnqueueNextID at he ⊢
    by_cases h1 : lki < n + 1
    · rw [if_pos h1] at he ⊢
      by_cases h2 : n + 1 ∈ qap
      · rw [if_pos h2] at he ⊢
        obtain ⟨a1, a2, a3, a4⟩ := ih e he
        exact ⟨a1, by omega, a3, a4⟩
      · rw [if_neg h2] at he ⊢
        simp only [Option.some.injEq] at he
        subst he
        exact ⟨rfl, Nat.le_refl _, h1, h2⟩
    · rw [if_neg h1] at he
      exact absurd he (by simp)

theorem tryNext_none (lki : Nat) (qap : Finset Nat) (n : Nat) :
    (tryEnqueueNextID lki qap n).2 = none → (tryEnqueueNextID lki qap n).1 ≤ lki := by
  induction n with
  | zero => simp [tryEnqueueNextID]
  | succ n ih =>
    intro he
    unfold tryEnqueueNextID at he ⊢
    by_cases h1 : lki < n + 1
    · rw [if_pos h1] at he ⊢
      by_cases h2 : n + 1 ∈ qap
      · rw [if_pos h2] at he ⊢
        exact ih he
      · rw [if_neg h2] at he
        exact absurd he (by simp)
    · rw [if_neg h1] at he ⊢
      omega

theorem tryNext_skipped (lki : Nat) (qap : Finset Nat) (n : Nat) :
    ∀ x, (tryEnqueueNextID lki qap n).1 < x → x ≤ n →
      x ∈ qap ∨ (tryEnqueueNextID lki qap n).2 = some x := by
  induction n with
  | zero =>
    intro x h1 h2
    omega
  | succ n ih =>
    intro x hx1 hx2
    unfold tryEnqueueNextID at hx1 ⊢
    by_cases h1 : lki < n + 1
    · rw [if_pos h1] at hx1 ⊢
      by_cases h2 : n + 1 ∈ qap
      · rw [if_pos h2] at hx1 ⊢
        by_cases hx : x = n + 1
        · exact Or.inl (hx ▸ h2)
        · exact ih x hx1 (by omega)
      · rw [if_neg h2] at hx1 ⊢
        have : x = n + 1 := by omega
        subst this
        exact Or.inr rfl
    · rw [if_neg h1] at hx1
      omega

/-- Invariant of the scan under an all-active corpus: `lki` stays 0, all
tracked ids are in `[1, maxID]`, every id recorded in `queuedAsParent` and
every id above the frontier is accumulated or still queued, and an empty
queue forces the frontier to 0. -/
def Inv (maxID : Nat) (st : ScanState) : Prop :=
  st.lki = 0 ∧
  (∀ x ∈ st.queue, 1 ≤ x ∧ x ≤ maxID) ∧
  (∀ x ∈ st.qap, 1 ≤ x ∧ x ≤ maxID) ∧
  (∀ x ∈ st.qap, x ∈ st.all ∨ x ∈ st.queue) ∧
  (∀ x : Nat, st.next < x → x ≤ maxID → x ∈ st.all ∨ x ∈ st.queue) ∧
  st.next ≤ maxID ∧
  (st.queue = [] → st.next = 0) ∧
  (∀ x ∈ st.all, 1 ≤ x ∧ x ≤ maxID)

/-- Termination measure: pending work plus remaining frontier plus
parent-recording headroom; every processed id strictly decreases it. -/
def measureS (maxID : Nat) (st : ScanState) : Nat :=
  st.queue.length + st.next + (maxID - st.qap.card)

/-- The convergence scenario: every item with id in `[1, maxID]` is active
(`activeAfter` older than every item, nothing dead or deleted) and parent
links point strictly downward within range. -/
def GoodCorpus (activeAfter : Int) (items : Nat → HN.Item) (maxID : Nat) : Prop :=
  ∀ id, 1 ≤ id → id ≤ maxID →
    isActive activeAfter (items id) = true ∧
    ∀ p, (items id).parent = some p → 1 ≤ p ∧ p < id

theorem card_le_of_bounds (s : Finset Nat) (maxID : Nat)
    (h : ∀ x ∈ s, 1 ≤ x ∧ x ≤ maxID) : s.card ≤ maxID := by
  have hsub : s ⊆ Finset.Icc 1 maxID := fun x hx => Finset.mem_Icc.2 (h x hx)
  have := Finset.card_le_card hsub
  simpa using this

theorem tryEnqueueParent_spec (it : HN.Item) (qap : Finset Nat) :
    qap ⊆ (tryEnqueueParent it qap).1 ∧
    (∀ x ∈ (tryEnqueueParent it qap).1,
      x ∈ qap ∨ x ∈ (tryEnqueueParent it qap).2) ∧
    (∀ x ∈ (tryEnqueueParent it qap).2,
      x ∈ (tryEnqueueParent it qap).1 ∧ it.parent = some x ∧ x ∉ qap) ∧
    (tryEnqueueParent it qap).1.card =
      qap.card + (tryEnqueueParent it qap).2.length := by
  unfold tryEnqueueParent
  cases hp : it.parent with
  | none => exact ⟨Finset.Subset.refl _, fun x hx => Or.inl hx, by simp, by simp⟩
  | some p =>
    dsimp only
    by_cases hm : p ∈ qap
    · rw [if_pos hm]
      exact ⟨Finset.Subset.refl _, fun x hx => Or.inl hx, by simp, by simp⟩
    · rw [if_neg hm]
      refine ⟨Finset.subset_insert p qap, ?_, ?_, ?_⟩
      · intro x hx
        rcases Finset.mem_insert.1 hx with h1 | h1
        · exact Or.inr (by simp [h1])
        · exact Or.inl h1
      · intro x hx
        have hxp : x = p := by simpa using hx
        subst hxp
        exact ⟨Finset.mem_insert_self x qap, rfl, hm⟩
      · simp [Finset.card_insert_of_not_mem hm]

/-- Processing one queued id under an all-active corpus preserves the
invariant and strictly decreases the measure. -/
theorem scan_step_spec (activeAfter : Int) (items : Nat → HN.Item) (maxID : Nat)
    (hg : GoodCorpus activeAfter items maxID) (st : ScanState) (id : Nat)
    (rest : List Nat) (hinv : Inv maxID st) (hq : st.queue = id :: rest) :
    Inv maxID
      { (scanStep activeAfter items { st with queue := rest } id).1 with
        queue :=
          (scanStep activeAfter items { st with queue := rest } id).1.queue ++
            (scanStep activeAfter items { st with queue := rest } id).2 } ∧
    measureS maxID
      { (scanStep activeAfter items { st with queue := rest } id).1 with
        queue :=
          (scanStep activeAfter items { st with queue := rest } id).1.queue ++
            (scanStep activeAfter items { st with queue := rest } id).2 } <
      measureS maxID st := by
  obtain ⟨i1, i2, i3, i4, i5, i6, i7, i8⟩ := hinv
  have hidmem : id ∈ st.queue := by
    rw [hq]
    exact List.mem_cons_self id rest
  obtain ⟨hid1, hid2⟩ := i2 id hidmem
  have hact : isActive activeAfter (items id) = true := (hg id hid1 hid2).1
  have hpar : ∀ p, (items id).parent = some p → 1 ≤ p ∧ p < id :=
    (hg id hid1 hid2).2
  have hrw : scanStep activeAfter items { st with queue := rest } id =
      ({ all := insert id st.all, queue := rest,
         next := (tryEnqueueNextID 0 (tryEnqueueParent (items id) st.qap).1
           st.next).1,
         lki := 0, qap := (tryEnqueueParent (items id) st.qap).1 },
       match (tryEnqueueNextID 0 (tryEnqueueParent (items id) st.qap).1
           st.next).2 with
       | some e => (tryEnqueueParent (items id) st.qap).2 ++ [e]
       | none => (tryEnqueueParent (items id) st.qap).2) := by
    simp [scanStep, hact, i1]
  obtain ⟨hP1, hP2, hP3, hP4⟩ := tryEnqueueParent_spec (items id) st.qap
  rw [hrw]
  rcases hP : tryEnqueueParent (items id) st.qap with ⟨q1, q2⟩
  rw [hP] at hP1 hP2 hP3 hP4
  dsimp only at hP1 hP2 hP3 hP4
  have hNle := tryNext_le 0 q1 st.next
  have hNemit := tryNext_emit 0 q1 st.next
  have hNnone := tryNext_none 0 q1 st.next
  have hNskip := tryNext_skipped 0 q1 st.next
  rcases hN : tryEnqueueNextID 0 q1 st.next with ⟨n1, n2⟩
  rw [hN] at hNle hNemit hNnone hNskip
  dsimp only at hNle hNemit hNnone hNskip ⊢
  -- bounds for the updated parent set
  have hq1b : ∀ x ∈ q1, 1 ≤ x ∧ x ≤ maxID := by
    intro x hx
    rcases hP2 x hx with h1 | h1
    · exact i3 x h1
    · obtain ⟨_, hpx, _⟩ := hP3 x h1
      obtain ⟨hx1, hx2⟩ := hpar x hpx
      exact ⟨hx1, by omega⟩
  have hq2sub : ∀ x ∈ q2, x ∈ q1 := fun x hx => (hP3 x hx).1
  have hq2b : ∀ x ∈ q2, 1 ≤ x ∧ x ≤ maxID := fun x hx => hq1b x (hq2sub x hx)
  -- the enqueued list
  have hMcases : ∀ x ∈ (match n2 with
      | some e => q2 ++ [e]
      | none => q2), x ∈ q2 ∨ n2 = some x := by
    intro x hx
    cases n2 with
    | none => exact Or.inl hx
    | some e =>
      rcases List.mem_append.1 hx with h1 | h1
      · exact Or.inl h1
      · have : x = e := by simpa using h1
        subst this
        exact Or.inr rfl
  have hq2M : ∀ x ∈ q2, x ∈ (match n2 with
      | some e => q2 ++ [e]
      | none => q2) := by
    intro x hx
    cases n2 with
    | none => exact hx
    | some e => exact List.mem_append.2 (Or.inl hx)
  have hMb : ∀ x ∈ (match n2 with
      | some e => q2 ++ [e]
      | none => q2), 1 ≤ x ∧ x ≤ maxID := by
    intro x hx
    rcases hMcases x hx with h1 | h1
    · exact hq2b x h1
    · obtain ⟨_, hxle, hxpos, _⟩ := hNemit x h1
      exact ⟨by omega, by omega⟩
  -- invariant components of the new state
  have hnew4 : ∀ x ∈ q1, x ∈ insert id st.all ∨
      x ∈ rest ++ (match n2 with
        | some e => q2 ++ [e]
        | none => q2) := by
    intro x hx
    rcases hP2 x hx with h1 | h1
    · rcases i4 x h1 with h2 | h2
      · exact Or.inl (Finset.mem_insert_of_mem h2)
      · rw [hq] at h2
        rcases List.mem_cons.1 h2 with h3 | h3
        · exact Or.inl (h3 ▸ Finset.mem_insert_self id st.all)
        · exact Or.inr (List.mem_append.2 (Or.inl h3))
    · exact Or.inr (List.mem_append.2 (Or.inr (hq2M x h1)))
  refine ⟨⟨rfl, ?_, ?_, ?_, ?_, ?_, ?_, ?_⟩, ?_⟩
  · -- queue bounds
    intro x hx
    rcases List.mem_append.1 hx with h1 | h1
    · exact i2 x (by rw [hq]; exact List.mem_cons_of_mem id h1)
    · exact hMb x h1
  · -- qap bounds
    exact hq1b
  · -- qap covered
    exact hnew4
  · -- frontier coverage
    intro x hx1 hx2
    by_cases hcase : st.next < x
    · rcases i5 x hcase hx2 with h1 | h1
      · exact Or.inl (Finset.mem_insert_of_mem h1)
      · rw [hq] at h1
        rcases List.mem_cons.1 h1 with h2 | h2
        · exact Or.inl (h2 ▸ Finset.mem_insert_self id st.all)
        · exact Or.inr (List.mem_append.2 (Or.inl h2))
    · have hxle : x ≤ st.next := by omega
      rcases hNskip x hx1 hxle with h1 | h1
      · exact hnew4 x h1
      · have : n2 = some x := h1
        rcases hMcases x (by
          rw [this]
          exact List.mem_append.2 (Or.inr (List.mem_singleton.2 rfl))) with h2 | h2
        · exact Or.inr (List.mem_append.2 (Or.inr (hq2M x h2)))
        · exact Or.inr (List.mem_append.2 (Or.inr (by
            rw [this]
            exact List.mem_append.2 (Or.inr (List.mem_singleton.2 rfl)))))
  · -- frontier bound
    show n1 ≤ maxID
    omega
  · -- empty queue forces frontier 0
    intro hempty
    have hrest : rest = [] ∧ (match n2 with
        | some e => q2 ++ [e]
        | none => q2) = [] := by
      constructor
      · cases hr2 : rest with
        | nil => rfl
        | cons a b =>
          rw [hr2] at hempty
          simp at hempty
      · cases hm2 : (match n2 with
          | some e => q2 ++ [e]
          | none => q2) with
        | nil => rfl
        | cons a b =>
          rw [hm2] at hempty
          simp at hempty
    cases hn2 : n2 with
    | none => exact Nat.le_zero.1 (hNnone hn2)
    | some e =>
      exfalso
      have := hrest.2
      rw [hn2] at this
      simp at this
  · -- accumulated bounds
    intro x hx
    rcases Finset.mem_insert.1 hx with h1 | h1
    · exact h1 ▸ ⟨hid1, hid2⟩
    · exact i8 x h1
  · -- measure strictly decreases
    unfold measureS
    dsimp only
    rw [hq]
    have hcard1 : q1.card ≤ maxID := card_le_of_bounds q1 maxID hq1b
    have hlenM : (match n2 with
        | some e => q2 ++ [e]
        | none => q2).length = q2.length + (match n2 with
        | some _ => 1
        | none => 0) := by
      cases n2 <;> simp
    have hn2fact : (match n2 with
        | some _ => 1
        | none => 0) + n1 ≤ st.next := by
      cases hn2 : n2 with
      | none =>
        have := hNnone hn2
        dsimp only
        omega
      | some e =>
        obtain ⟨he1, he2, he3, _⟩ := hNemit e hn2
        dsimp only
        omega
    simp only [List.length_append, List.length_cons]
    rw [hlenM, hP4]
    omega

/-- Per-step enqueue discipline, for any state and any id: every id the
accumulator enqueues is either recorded in `queuedAsParent` (at the moment
it is enqueued) or is the descending-frontier emission, strictly greater
than `largestKnownInactiveID` at that moment and not in `queuedAsParent`. -/
theorem scanStep_more (activeAfter : Int) (items : Nat → HN.Item)
    (st : ScanState) (id : Nat) :
    ∀ x ∈ (scanStep activeAfter items st id).2,
      x ∈ (scanStep activeAfter items st id).1.qap ∨
        ((scanStep activeAfter items st id).1.lki < x ∧
          x ∉ (scanStep activeAfter items st id).1.qap) := by
  intro x hx
  unfold scanStep at hx ⊢
  by_cases hc : (!isActive activeAfter (items id) && decide (id ∉ st.qap)) = true
  · rw [if_pos hc] at hx
    simp at hx
  · rw [if_neg hc] at hx ⊢
    dsimp only at hx ⊢
    obtain ⟨_, _, hP3, _⟩ := tryEnqueueParent_spec (items id) st.qap
    generalize hL : (if isActive activeAfter (items id) = true
      then st.lki else max id st.lki) = L at hx ⊢
    rcases hP : tryEnqueueParent (items id) st.qap with ⟨q1, q2⟩
    rw [hP] at hx hP3
    dsimp only at hx hP3
    have hNemit := tryNext_emit L q1 st.next
    cases hn2 : (tryEnqueueNextID L q1 st.next).2 with
    | none =>
      rw [hn2] at hx
      exact Or.inl (hP3 x hx).1
    | some e =>
      rw [hn2] at hx
      rcases List.mem_append.1 hx with h1 | h1
      · exact Or.inl (hP3 x h1).1
      · have hxe : x = e := by simpa using h1
        subst hxe
        obtain ⟨_, _, h3, h4⟩ := hNemit x hn2
        exact Or.inr ⟨h3, h4⟩

/-- Running the worklist with fuel at least the measure empties the queue
and preserves the invariant. -/
theorem scan_run_inv (activeAfter : Int) (items : Nat → HN.Item) (maxID : Nat)
    (hg : GoodCorpus activeAfter items maxID) :
    ∀ (fuel : Nat) (st : ScanState), Inv maxID st → measureS maxID st ≤ fuel →
      (scanRun activeAfter items fuel st).queue = [] ∧
      Inv maxID (scanRun activeAfter items fuel st) := by
  intro fuel
  induction fuel with
  | zero =>
    intro st hinv hm
    have hqz : st.queue = [] := by
      have hl : st.queue.length = 0 := by
        unfold measureS at hm
        omega
      exact List.length_eq_zero.1 hl
    exact ⟨hqz, hinv⟩
  | succ fuel ih =>
    intro st hinv hm
    cases hq : st.queue with
    | nil =>
      have hrun : scanRun activeAfter items (fuel + 1) st = st := by
        conv_lhs => rw [scanRun, hq]
      rw [hrun]
      exact ⟨hq, hinv⟩
    | cons id rest =>
      have hrun : scanRun activeAfter items (fuel + 1) st =
          scanRun activeAfter items fuel
            { (scanStep activeAfter items { st with queue := rest } id).1 with
              queue :=
                (scanStep activeAfter items
                  { st with queue := rest } id).1.queue ++
                  (scanStep activeAfter items { st with queue := rest } id).2 } := by
        conv_lhs => rw [scanRun, hq]
      obtain ⟨hinv2, hdec⟩ :=
        scan_step_spec activeAfter items maxID hg st id rest hinv hq
      rw [hrun]
      exact ih _ hinv2 (by omega)

/-- The initial state satisfies the invariant. -/
theorem init_inv (maxID K : Nat) (hK : K + 1 ≤ maxID) :
    Inv maxID (initState maxID K) := by
  have hnext : (initState maxID K).next = maxID - K - 1 := rfl
  have hqueue : (initState maxID K).queue = seed maxID K := rfl
  have hall : (initState maxID K).all = (∅ : Finset Nat) := rfl
  have hqap : (initState maxID K).qap = (∅ : Finset Nat) := rfl
  refine ⟨rfl, ?_, ?_, ?_, ?_, ?_, ?_, ?_⟩
  · intro x hx
    rw [hqueue] at hx
    obtain ⟨i, hi, rfl⟩ := List.mem_map.1 hx
    have hi2 : i < K + 1 := List.mem_range.1 hi
    omega
  · intro x hx
    rw [hqap] at hx
    exact absurd hx (Finset.not_mem_empty x)
  · intro x hx
    rw [hqap] at hx
    exact absurd hx (Finset.not_mem_empty x)
  · intro x hx1 hx2
    rw [hnext] at hx1
    right
    rw [hqueue]
    apply List.mem_map.2
    exact ⟨x - (maxID - K), List.mem_range.2 (by omega), by omega⟩
  · rw [hnext]
    omega
  · intro hq
    exfalso
    rw [hqueue] at hq
    have hlen := congrArg List.length hq
    simp [seed] at hlen
  · intro x hx
    rw [hall] at hx
    exact absurd hx (Finset.not_mem_empty x)

theorem init_measure (maxID K : Nat) (hK : K + 1 ≤ maxID) :
    measureS maxID (initState maxID K) ≤ 2 * maxID := by
  show (seed maxID K).length + (maxID - K - 1) + (maxID - (∅ : Finset Nat).card) ≤
    2 * maxID
  simp [seed]
  omega

end Scan

/-- The concrete corpus for the C9 witness: maxID 4, parents 2→1, 3→1,
4→2, every item recent and alive. -/
def scanWitnessItems (id : Nat) : HN.Item :=
  { HN.zeroItem with
    id := id, time := 100, type := HN.ItemType.story,
    parent :=
      if id = 4 then some 2
      else if id = 3 then some 1
      else if id = 2 then some 1
      else none }

/-- C9: during `GetActive`'s frontier scan, every id emitted by the
descending-frontier step (`getActiveTryEnqueueNextID`) is strictly greater
than `largestKnownInactiveID` at the moment it is enqueued, every other id
the scan enqueues beyond the initial seed was first recorded in
`queuedAsParent` as a needed parent, and under an `activeAfter` older than
every item (with parent links pointing strictly downward) the traversal
terminates with an empty worklist having accumulated every item
`1..maxID`. -/
theorem c9_frontier_scan (activeAfter : Int) (items : Nat → HN.Item)
    (maxID K : Nat) (hg : Scan.GoodCorpus activeAfter items maxID)
    (hK : K + 1 ≤ maxID) :
    (∀ (st : Scan.ScanState) (id : Nat),
      ∀ x ∈ (Scan.scanStep activeAfter items st id).2,
        x ∈ (Scan.scanStep activeAfter items st id).1.qap ∨
          ((Scan.scanStep activeAfter items st id).1.lki < x ∧
            x ∉ (Scan.scanStep activeAfter items st id).1.qap)) ∧
    (Scan.scanRun activeAfter items (2 * maxID)
      (Scan.initState maxID K)).queue = [] ∧
    (Scan.scanRun activeAfter items (2 * maxID)
      (Scan.initState maxID K)).all = Finset.Icc 1 maxID := by
  obtain ⟨hqe, hinvf⟩ := Scan.scan_run_inv activeAfter items maxID hg
    (2 * maxID) (Scan.initState maxID K) (Scan.init_inv maxID K hK)
    (Scan.init_measure maxID K hK)
  obtain ⟨f1, f2, f3, f4, f5, f6, f7, f8⟩ := hinvf
  have hnext0 :
      (Scan.scanRun activeAfter items (2 * maxID)
        (Scan.initState maxID K)).next = 0 := f7 hqe
  refine ⟨fun st id => Scan.scanStep_more activeAfter items st id, hqe, ?_⟩
  apply Finset.ext
  intro x
  constructor
  · intro hx
    exact Finset.mem_Icc.2 (f8 x hx)
  · intro hx
    obtain ⟨hx1, hx2⟩ := Finset.mem_Icc.1 hx
    rcases f5 x (by omega) hx2 with h1 | h1
    · exact h1
    · rw [hqe] at h1
      exact absurd h1 (List.not_mem_nil x)

/-- Closed witness for C9: the four-item corpus above, seeded with
`[3, 4]`, terminates with `all = {1, 2, 3, 4}`. -/
theorem c9_frontier_scan_witness :
    (Scan.scanRun 0 scanWitnessItems (2 * 4) (Scan.initState 4 1)).queue = [] ∧
    (Scan.scanRun 0 scanWitnessItems (2 * 4) (Scan.initState 4 1)).all =
      Finset.Icc 1 4 := by
  have hg : Scan.GoodCorpus 0 scanWitnessItems 4 := by
    intro id h1 h2
    interval_cases id
    · exact ⟨by decide, fun p hp => by simp [scanWitnessItems] at hp⟩
    · refine ⟨by decide, fun p hp => ?_⟩
      simp [scanWitnessItems] at hp
      omega
    · refine ⟨by decide, fun p hp => ?_⟩
      simp [scanWitnessItems] at hp
      omega
    · refine ⟨by decide, fun p hp => ?_⟩
      simp [scanWitnessItems] at hp
      omega
  exact ⟨(c9_frontier_scan 0 scanWitnessItems 4 1 hg (by omega)).2.1,
    (c9_frontier_scan 0 scanWitnessItems 4 1 hg (by omega)).2.2⟩

end Unlurker
